import Mathlib

set_option maxRecDepth 100000

/-!
Shallow embedding of the core logic of the 5secDownloader repository
(`scripts/clip_processor.py`, `scripts/online_clip_processor.py`, `scripts/gui.py`):
timestamp parsing, YouTube-URL normalisation, CSV job-table parsing and the
three clip-job runners.  Strings are modelled as `List Char` / `String`,
Python numbers as `ℤ`/`ℚ` (exact values; IEEE-754 rounding of Python floats is
out of scope), exceptions as `Option`, and the two external subprocesses
(video downloader, segment extractor) as success/failure oracles.
-/

namespace FiveSec

/-! ### Basic Python string helpers -/

/-- ASCII whitespace recognised by Python `str.strip()` (space, tab, newline,
carriage return, vertical tab, form feed); the model is restricted to ASCII. -/
def isPySpace (c : Char) : Bool :=
  c = ' ' || c = '\t' || c = '\n' || decide (c.toNat = 13) ||
    decide (c.toNat = 11) || decide (c.toNat = 12)

/-- Python `str.strip()`: drop whitespace from both ends. -/
def pyStrip (l : List Char) : List Char :=
  ((l.dropWhile isPySpace).reverse.dropWhile isPySpace).reverse

/-- `str.strip()` on `String`. -/
def pyStripS (s : String) : String := ⟨pyStrip s.data⟩

/-- Python `str.split(sep)` for a one-character separator: keeps empty pieces. -/
def splitChar (sep : Char) : List Char → List (List Char)
  | [] => [[]]
  | c :: cs =>
    match splitChar sep cs with
    | [] => [[]]
    | h :: t => if c = sep then [] :: h :: t else (c :: h) :: t

/-- Python `str.split(sep, 1)`: split at the first occurrence of `sep`;
`none` when `sep` does not occur. -/
def splitFirst (sep : Char) : List Char → Option (List Char × List Char)
  | [] => none
  | c :: cs =>
    if c = sep then some ([], cs)
    else (splitFirst sep cs).map (fun p => (c :: p.1, p.2))

/-! ### Python `int()` and `float()` on decimal numerals -/

/-- Decimal digit value. -/
def digVal (c : Char) : Option ℕ :=
  if '0' ≤ c ∧ c ≤ '9' then some (c.toNat - 48) else none

/-- Digit run with single underscores allowed between digits (Python's numeral
grammar), accumulating the value and counting the digits consumed. -/
def digitsCoreCnt (acc k : ℕ) : List Char → Option (ℕ × ℕ)
  | [] => some (acc, k)
  | c :: rest =>
    if c = '_' then
      match rest with
      | [] => none
      | c2 :: rest2 =>
        match digVal c2 with
        | some d => digitsCoreCnt (acc * 10 + d) (k + 1) rest2
        | none => none
    else
      match digVal c with
      | some d => digitsCoreCnt (acc * 10 + d) (k + 1) rest
      | none => none

/-- A non-empty underscore-separated digit run, with its value and digit count. -/
def pyNatDigitsCnt : List Char → Option (ℕ × ℕ)
  | [] => none
  | c :: rest =>
    match digVal c with
    | some d => digitsCoreCnt d 1 rest
    | none => none

/-- Value of a non-empty underscore-separated digit run. -/
def pyNatDigits (l : List Char) : Option ℕ := (pyNatDigitsCnt l).map (·.1)

/-- Model of Python `int(str)` (ASCII): strip whitespace, optional sign,
then a digit run. `none` models the `ValueError` raised on malformed input. -/
def pyInt (l : List Char) : Option ℤ :=
  match pyStrip l with
  | [] => none
  | c :: rest =>
    if c = '+' then (pyNatDigits rest).map Int.ofNat
    else if c = '-' then (pyNatDigits rest).map (fun n => -(n : ℤ))
    else (pyNatDigits (c :: rest)).map Int.ofNat

/-- Split a numeral at the first `e`/`E` (exponent marker of Python floats). -/
def splitExpMark : List Char → List Char × Option (List Char)
  | [] => ([], none)
  | c :: cs =>
    if c = 'e' ∨ c = 'E' then ([], some cs)
    else
      match splitExpMark cs with
      | (a, b) => (c :: a, b)

/-- Mantissa of a Python float literal (`digits`, `digits.digits?`, or
`.digits`), kept as a scaled integer: the pair `(n, k)` denotes `n / 10 ^ k`. -/
def pyMantissaParts (l : List Char) : Option (ℕ × ℕ) :=
  match splitFirst '.' l with
  | none => (pyNatDigits l).map (fun n => (n, 0))
  | some (a, b) =>
    match a, b with
    | [], [] => none
    | [], _ => pyNatDigitsCnt b
    | _, [] => (pyNatDigits a).map (fun n => (n, 0))
    | _, _ =>
      match pyNatDigits a, pyNatDigitsCnt b with
      | some i, some p => some (i * 10 ^ p.2 + p.1, p.2)
      | _, _ => none

/-- Signed exponent of a Python float literal. -/
def pyExpVal (l : List Char) : Option ℤ :=
  match l with
  | [] => none
  | c :: rest =>
    if c = '+' then (pyNatDigits rest).map Int.ofNat
    else if c = '-' then (pyNatDigits rest).map (fun n => -(n : ℤ))
    else (pyNatDigits (c :: rest)).map Int.ofNat

/-- Signless core of a float literal: mantissa `(n, k)` with exponent `e`,
denoting `n / 10 ^ k * 10 ^ e`. -/
def pyFloatCore (m : List Char) : Option (ℕ × ℕ × ℤ) :=
  match splitExpMark m with
  | (mant, expPart) =>
    match pyMantissaParts mant, expPart with
    | some p, none => some (p.1, p.2, 0)
    | some p, some e =>
      match pyExpVal e with
      | some ex => some (p.1, p.2, ex)
      | none => none
    | none, _ => none

/-- The exact rational `s * n / 10 ^ k * 10 ^ e` (`s` the sign), assembled with
integer arithmetic and a single `mkRat` so that it evaluates by reduction. -/
def pyRatVal (neg : Bool) (n k : ℕ) (e : ℤ) : ℚ :=
  if 0 ≤ e then
    mkRat (if neg then -((n * 10 ^ e.toNat : ℕ) : ℤ) else ((n * 10 ^ e.toNat : ℕ) : ℤ))
      (10 ^ k)
  else
    mkRat (if neg then -((n : ℕ) : ℤ) else ((n : ℕ) : ℤ)) (10 ^ (k + (-e).toNat))

/-- Model of Python `float(str)` on finite decimal numerals (ASCII), as an exact
rational; the special `inf`/`infinity`/`nan` spellings and IEEE-754 rounding are
outside the model.  `none` models `ValueError`. -/
def pyFloat (l : List Char) : Option ℚ :=
  match pyStrip l with
  | [] => none
  | c :: rest =>
    if c = '+' then (pyFloatCore rest).map (fun t => pyRatVal false t.1 t.2.1 t.2.2)
    else if c = '-' then (pyFloatCore rest).map (fun t => pyRatVal true t.1 t.2.1 t.2.2)
    else (pyFloatCore (c :: rest)).map (fun t => pyRatVal false t.1 t.2.1 t.2.2)

/-! ### Timestamp parser (`convert_timestamp`) -/

/-- `convert_timestamp` from `clip_processor.py` / `online_clip_processor.py`:
split the token on `'.'`; exactly two parts are read as `MM.SS`
(`int(parts[0]) * 60 + int(parts[1])`), anything else as `float(ts)`. -/
def convert_timestamp (ts : List Char) : Option ℚ :=
  match splitChar '.' ts with
  | [a, b] =>
    match pyInt a, pyInt b with
    | some m, some s => some (((m * 60 + s : ℤ) : ℚ))
    | _, _ => none
  | _ => pyFloat ts

/-- `convert_timestamp` from `gui.py`: as above plus an `HH.MM.SS` branch for
exactly three parts. -/
def convert_timestamp_gui (ts : List Char) : Option ℚ :=
  match splitChar '.' ts with
  | [a, b] =>
    match pyInt a, pyInt b with
    | some m, some s => some (((m * 60 + s : ℤ) : ℚ))
    | _, _ => none
  | [a, b, c] =>
    match pyInt a, pyInt b, pyInt c with
    | some h, some m, some s => some (((h * 3600 + m * 60 + s : ℤ) : ℚ))
    | _, _, _ => none
  | _ => pyFloat ts

/-! ### URL normalisation (`clean_youtube_url`)

The functions below model the parts of `urllib.parse` used by the scripts:
`urlsplit` (only as far as extracting the query component), `parse_qsl` with
default arguments, and `unquote` with `errors='replace'`. -/

/-- The U+FFFD replacement character. -/
def replChar : Char := Char.ofNat 0xFFFD

/-- Is `b` a UTF-8 continuation byte? -/
def isCont (b : ℕ) : Bool := decide (0x80 ≤ b) && decide (b ≤ 0xBF)

/-- Lower bound of the first continuation byte after a three-byte lead
(excluding overlong encodings). -/
def cont3lo (b : ℕ) : ℕ := if b = 0xE0 then 0xA0 else 0x80

/-- Upper bound of the first continuation byte after a three-byte lead
(excluding surrogates). -/
def cont3hi (b : ℕ) : ℕ := if b = 0xED then 0x9F else 0xBF

/-- Lower bound of the first continuation byte after a four-byte lead. -/
def cont4lo (b : ℕ) : ℕ := if b = 0xF0 then 0x90 else 0x80

/-- Upper bound of the first continuation byte after a four-byte lead. -/
def cont4hi (b : ℕ) : ℕ := if b = 0xF4 then 0x8F else 0xBF

/-- UTF-8 decoding with `errors='replace'`: each maximal subpart of an
ill-formed sequence becomes one U+FFFD, as in CPython's decoder. -/
def utf8Decode : List ℕ → List Char
  | [] => []
  | b :: rest =>
    if b < 0x80 then Char.ofNat b :: utf8Decode rest
    else if decide (0xC2 ≤ b) && decide (b ≤ 0xDF) then
      match rest with
      | [] => [replChar]
      | c1 :: rest1 =>
        if isCont c1 then
          Char.ofNat ((b - 0xC0) * 0x40 + (c1 - 0x80)) :: utf8Decode rest1
        else replChar :: utf8Decode (c1 :: rest1)
    else if decide (0xE0 ≤ b) && decide (b ≤ 0xEF) then
      match rest with
      | [] => [replChar]
      | c1 :: rest1 =>
        if decide (cont3lo b ≤ c1) && decide (c1 ≤ cont3hi b) then
          match rest1 with
          | [] => [replChar]
          | c2 :: rest2 =>
            if isCont c2 then
              Char.ofNat ((b - 0xE0) * 0x1000 + (c1 - 0x80) * 0x40 + (c2 - 0x80)) ::
                utf8Decode rest2
            else replChar :: utf8Decode (c2 :: rest2)
        else replChar :: utf8Decode (c1 :: rest1)
    else if decide (0xF0 ≤ b) && decide (b ≤ 0xF4) then
      match rest with
      | [] => [replChar]
      | c1 :: rest1 =>
        if decide (cont4lo b ≤ c1) && decide (c1 ≤ cont4hi b) then
          match rest1 with
          | [] => [replChar]
          | c2 :: rest2 =>
            if isCont c2 then
              match rest2 with
              | [] => [replChar]
              | c3 :: rest3 =>
                if isCont c3 then
                  Char.ofNat ((b - 0xF0) * 0x40000 + (c1 - 0x80) * 0x1000 +
                      (c2 - 0x80) * 0x40 + (c3 - 0x80)) :: utf8Decode rest3
                else replChar :: utf8Decode (c3 :: rest3)
            else replChar :: utf8Decode (c2 :: rest2)
        else replChar :: utf8Decode (c1 :: rest1)
    else replChar :: utf8Decode rest

/-- Hexadecimal digit value. -/
def hexVal (c : Char) : Option ℕ :=
  if '0' ≤ c ∧ c ≤ '9' then some (c.toNat - 48)
  else if 'a' ≤ c ∧ c ≤ 'f' then some (c.toNat - 87)
  else if 'A' ≤ c ∧ c ≤ 'F' then some (c.toNat - 55)
  else none

/-- The per-item step of `unquote_to_bytes`: each piece that followed a `%`
starts with either two hex digits (a byte escape, remainder literal) or is
reproduced literally behind the consumed `%`. -/
def unquoteBits : List (List Char) → List (ℕ ⊕ Char)
  | [] => []
  | item :: rest =>
    (match item with
     | c1 :: c2 :: tail =>
       (match hexVal c1, hexVal c2 with
        | some h1, some h2 => Sum.inl (h1 * 16 + h2) :: tail.map Sum.inr
        | _, _ => Sum.inr '%' :: item.map Sum.inr)
     | _ => Sum.inr '%' :: item.map Sum.inr) ++ unquoteBits rest

/-- Percent-escape scanner of `urllib.parse.unquote`, following
`unquote_to_bytes`: split on `'%'`, keep the first piece literal, and decode
each following piece with `unquoteBits`; byte escapes become byte tokens. -/
def pctTokens (l : List Char) : List (ℕ ⊕ Char) :=
  match splitChar '%' l with
  | [] => []
  | first :: rest => first.map Sum.inr ++ unquoteBits rest

/-- Decode maximal byte-token runs as UTF-8 with replacement; literal
characters pass through (an ASCII byte never continues a multi-byte sequence,
so flushing at every literal gives CPython's behaviour). -/
def detok (acc : List ℕ) : List (ℕ ⊕ Char) → List Char
  | [] => utf8Decode acc.reverse
  | Sum.inl b :: rest => detok (b :: acc) rest
  | Sum.inr c :: rest => utf8Decode acc.reverse ++ c :: detok [] rest

/-- `urllib.parse.unquote` with `encoding='utf-8'`, `errors='replace'`. -/
def pyUnquote (l : List Char) : List Char := detok [] (pctTokens l)

/-- The `.replace('+', ' ')` step of `parse_qsl`. -/
def plusToSpace (l : List Char) : List Char := l.map (fun c => if c = '+' then ' ' else c)

/-- `urllib.parse.parse_qsl(qs)` with default arguments: split on `'&'`, skip
empty fields, fields without `'='` and fields with an empty value, then
plus-decode and percent-decode both name and value. -/
def parse_qsl (qs : List Char) : List (List Char × List Char) :=
  (splitChar '&' qs).filterMap (fun nv =>
    match nv with
    | [] => none
    | _ =>
      match splitFirst '=' nv with
      | none => none
      | some (n, v) =>
        if v = [] then none
        else some (pyUnquote (plusToSpace n), pyUnquote (plusToSpace v)))

/-- First value bound to the parameter `v`, i.e. `params['v'][0]` after
`params = parse_qs(query)` when `'v' in params`. -/
def getV (params : List (List Char × List Char)) : Option (List Char) :=
  (params.find? (fun p => p.1 == ['v'])).map (fun p => p.2)

/-- WHATWG C0-control-or-space class stripped from the left by `urlsplit`. -/
def c0OrSpace (c : Char) : Bool := decide (c.toNat ≤ 32)

/-- Tab, CR and LF, removed everywhere by `urlsplit`. -/
def isUrlUnsafe (c : Char) : Bool := c = '\t' || c = '\r' || c = '\n'

/-- Characters allowed in a URL scheme. -/
def isSchemeChar (c : Char) : Bool :=
  c.isAlpha || c.isDigit || c = '+' || c = '-' || c = '.'

/-- Is this character a netloc delimiter (`/`, `?`, `#`)? -/
def isNetlocDelim (c : Char) : Bool := c = '/' || c = '?' || c = '#'

/-- First step of `urlsplit`: strip leading C0-control/space characters and
remove every tab, CR and LF. -/
def urlStripped (url0 : List Char) : List Char :=
  (url0.dropWhile c0OrSpace).filter (fun c => !(isUrlUnsafe c))

/-- Scheme stripping of `urlsplit`: drop a leading well-formed `scheme:`. -/
def urlNoScheme (u : List Char) : List Char :=
  match splitFirst ':' u with
  | some (pre, post) =>
    if pre ≠ [] ∧ pre.all isSchemeChar ∧ (pre.headD ' ').isAlpha then post else u
  | none => u

/-- Netloc splitting of `urlsplit`: when the URL starts with `//`, drop the
netloc (up to the next `/`, `?` or `#`), raising `ValueError` (`none`) on
mismatched IPv6 brackets; the bracketed-host validation added in CPython 3.11
is not modelled. -/
def urlAfterNetloc : List Char → Option (List Char)
  | '/' :: '/' :: rest =>
    if ((rest.takeWhile (fun c => !(isNetlocDelim c))).contains '[') !=
        ((rest.takeWhile (fun c => !(isNetlocDelim c))).contains ']') then none
    else some (rest.dropWhile (fun c => !(isNetlocDelim c)))
  | u => some u

/-- Fragment and query splitting of `urlsplit`: drop everything after the
first `#`, then return what follows the first `?` (empty without a `?`). -/
def urlQuery (u : List Char) : List Char :=
  match splitFirst '?'
      (match splitFirst '#' u with
       | some (a, _) => a
       | none => u) with
  | some (_, b) => b
  | none => []

/-- Query-component extraction of CPython's `urlsplit`, composed of the four
steps above. -/
def urlsplitQuery (url0 : List Char) : Option (List Char) :=
  match urlAfterNetloc (urlNoScheme (urlStripped url0)) with
  | none => none
  | some u3 => some (urlQuery u3)

/-- The fixed output header used by all three `clean_youtube_url` variants. -/
def watchHead : List Char := "https://www.youtube.com/watch?v=".data

/-- `clean_youtube_url` from `online_clip_processor.py` / `gui.py`: if the
query string has a `v` parameter, rebuild the canonical watch URL from its
first value, otherwise (including any `ValueError`) return the input. -/
def clean_youtube_url (url : String) : String :=
  match urlsplitQuery url.data with
  | none => url
  | some q =>
    match getV (parse_qsl q) with
    | some vid => ⟨watchHead ++ vid⟩
    | none => url

/-- `clean_youtube_url` from `clip_processor.py`.  The `elif 'watch' in
parsed.path` branch and the final fall-through both return the input
unchanged, so beyond the shared logic only the truthiness test
`if video_id:` is modelled. -/
def clean_youtube_url_dl (url : String) : String :=
  match urlsplitQuery url.data with
  | none => url
  | some q =>
    match getV (parse_qsl q) with
    | some vid => if vid = [] then url else ⟨watchHead ++ vid⟩
    | none => url

/-- The decoded `v` value `clean_youtube_url` acts on, if any. -/
def cleanExtract (url : String) : Option (List Char) :=
  match urlsplitQuery url.data with
  | none => none
  | some q => getV (parse_qsl q)

/-! ### Job-table parsing (`parse_input_csv`)

The parsers take the rows of cells a standard CSV reader produces and build,
per row, the list of (normalised URL, timestamps) pairs; a Python exception
escaping from `convert_timestamp` aborts the whole parse (`none`). -/

/-- A ClipRequest: normalised source URL with its ordered timestamps. -/
abbrev Pair := String × List ℚ

/-- A RowJob: the ClipRequests of one CSV row. -/
abbrev Row := List Pair

/-- Timestamp-cell tokenisation shared by the parsers: split the cell on
`';'`, strip each token, drop blank tokens. -/
def tsTokens (l : List Char) : List (List Char) :=
  ((splitChar ';' l).map pyStrip).filter (fun t => !t.isEmpty)

/-- The comprehension `[convert_timestamp(t) for t in toks]`: tokens are
converted left to right and the first exception aborts. -/
def convList : List (List Char) → Option (List ℚ)
  | [] => some []
  | t :: rest =>
    match convert_timestamp t, convList rest with
    | some q, some qs => some (q :: qs)
    | _, _ => none

/-- The two-at-a-time cell walk of `parse_input_csv` in
`online_clip_processor.py` / `gui.py`: cell `2i` is a URL, cell `2i+1` a
timestamp list; an unpaired trailing cell is skipped, and a pair is skipped
when either stripped cell is empty. -/
def pairsWalkOnline : List String → Option Row
  | [] => some []
  | [_] => some []
  | u :: t :: rest =>
    if (pyStrip u.data).isEmpty || (pyStrip t.data).isEmpty then pairsWalkOnline rest
    else
      match convList (tsTokens (pyStrip t.data)), pairsWalkOnline rest with
      | some tss, some rest2 =>
        some ((clean_youtube_url ⟨pyStrip u.data⟩, tss) :: rest2)
      | _, _ => none

/-- `parse_input_csv` from `online_clip_processor.py`: a row with only empty
cells (`not any(row)`) contributes an empty RowJob.  (`gui.py` differs only in
using `convert_timestamp_gui`.) -/
def parse_input_csv_online : List (List String) → Option (List Row)
  | [] => some []
  | row :: rest =>
    match (if row.all (fun cell => cell.isEmpty) then some ([] : Row)
           else pairsWalkOnline row),
        parse_input_csv_online rest with
    | some r, some rs => some (r :: rs)
    | _, _ => none

/-- The cell walk of `parse_input_csv` in `clip_processor.py`: only the URL
cell is tested for blankness; a blank timestamp cell yields an empty
timestamp list but the pair is still kept. -/
def pairsWalkDl : List String → Option Row
  | [] => some []
  | [_] => some []
  | u :: t :: rest =>
    if (pyStrip u.data).isEmpty then pairsWalkDl rest
    else
      match convList (if (pyStrip t.data).isEmpty then []
          else tsTokens (pyStrip t.data)), pairsWalkDl rest with
      | some tss, some rest2 =>
        some ((clean_youtube_url_dl ⟨pyStrip u.data⟩, tss) :: rest2)
      | _, _ => none

/-- `parse_input_csv` from `clip_processor.py`: a row is blank when every cell
is whitespace-only (`not any(row) or all(cell.strip() == '' ...)`; the first
disjunct is subsumed by the second). -/
def parse_input_csv_dl : List (List String) → Option (List Row)
  | [] => some []
  | row :: rest =>
    match (if row.all (fun cell => (pyStrip cell.data).isEmpty) then some ([] : Row)
           else pairsWalkDl row),
        parse_input_csv_dl rest with
    | some r, some rs => some (r :: rs)
    | _, _ => none

/-! ### Clip job runners (`process_clips`)

The runners walk an already-parsed table (in the scripts `process_clips`
starts with `rows = parse_input_csv(csv_path)`); the two external processes
are modelled by a success oracle `env : ℕ → Bool` indexed by the running
count of external invocations, and the GUI stop event by a sampled stream
`stop : ℕ → Bool` indexed by the running count of `is_set()` checks.
Logging, sleeps and filesystem effects carry no information and are not
modelled; row/url/clip indices are recorded on each attempt so that
properties of the trace can be stated. -/

/-- Decimal rendering of a counter, as used in the output f-strings. -/
def natStr (n : ℕ) : String := Nat.repr n

/-- One download attempt of the range-download runners. -/
structure Attempt where
  row : ℕ
  urlIdx : ℕ
  clipIdx : ℕ
  url : String
  ts : ℚ
  name : String
  ok : Bool
deriving DecidableEq

/-- The `for ts in timestamps` loop of `process_clips` in
`online_clip_processor.py`: name `f"{row}.{clip_count}"`, counter bumped only
after a successful download. -/
def onlineTsLoop (env : ℕ → Bool) (rowN uIdx : ℕ) (url : String) :
    List ℚ → ℕ → ℕ → List Attempt × ℕ × ℕ
  | [], c, a => ([], c, a)
  | ts :: rest, c, a =>
    let ok := env a
    let ev : Attempt := ⟨rowN, uIdx, c, url, ts, natStr rowN ++ "." ++ natStr c, ok⟩
    let c2 := if ok then c + 1 else c
    let r := onlineTsLoop env rowN uIdx url rest c2 (a + 1)
    (ev :: r.1, r.2)

/-- The `for url, timestamps in pairs` loop of `process_clips` in
`online_clip_processor.py`; the clip counter threads through the whole row. -/
def onlinePairsLoop (env : ℕ → Bool) (rowN : ℕ) :
    List Pair → ℕ → ℕ → ℕ → List Attempt × ℕ
  | [], _, _, a => ([], a)
  | p :: rest, ui, c, a =>
    let r := onlineTsLoop env rowN (ui + 1) p.1 p.2 c a
    let r2 := onlinePairsLoop env rowN rest (ui + 1) r.2.1 r.2.2
    (r.1 ++ r2.1, r2.2)

/-- The trace of one executed row. -/
structure RowRun where
  rowN : ℕ
  attempts : List Attempt
deriving DecidableEq

/-- The row loop of `process_clips` in `online_clip_processor.py`:
`clip_count` restarts at 1 for each row. -/
def onlineRowsLoop (env : ℕ → Bool) : List Row → ℕ → ℕ → List RowRun
  | [], _, _ => []
  | pairs :: rest, rowN, a =>
    let r := onlinePairsLoop env rowN pairs 0 1 a
    ⟨rowN, r.1⟩ :: onlineRowsLoop env rest (rowN + 1) r.2

/-- `process_clips` from `online_clip_processor.py` on a parsed table:
empty rows are filtered out first and the surviving rows renumbered 1.. . -/
def process_clips_online (env : ℕ → Bool) (rows : List Row) : List RowRun :=
  onlineRowsLoop env (rows.filter (fun r => !r.isEmpty)) 1 0

/-- One `cut_clip` attempt of the download-then-cut runner; the name carries
the `.mp4` extension used by `clip_processor.py`. -/
structure CutAttempt where
  row : ℕ
  clipIdx : ℕ
  ts : ℚ
  name : String
  ok : Bool
deriving DecidableEq

/-- The processing of one ClipRequest by `clip_processor.py`: one video
download, then (on success) one cut per timestamp. -/
structure PairRunA where
  url : String
  tss : List ℚ
  vidOk : Bool
  cuts : List CutAttempt
deriving DecidableEq

/-- The trace of one executed row of `clip_processor.py`. -/
structure RowRunA where
  rowIdx : ℕ
  pairRuns : List PairRunA
deriving DecidableEq

/-- The `for timestamp in timestamps` loop of `process_clips` in
`clip_processor.py`: one `cut_clip` per timestamp, counter bumped only on
success, a failed cut only skips that clip. -/
def cutLoop (env : ℕ → Bool) (rowN : ℕ) : List ℚ → ℕ → ℕ → List CutAttempt × ℕ × ℕ
  | [], c, a => ([], c, a)
  | ts :: rest, c, a =>
    let ok := env a
    let ev : CutAttempt := ⟨rowN, c, ts, natStr rowN ++ "." ++ natStr c ++ ".mp4", ok⟩
    let c2 := if ok then c + 1 else c
    let r := cutLoop env rowN rest c2 (a + 1)
    (ev :: r.1, r.2)

/-- The `for url, timestamps in url_timestamp_pairs` loop of `process_clips`
in `clip_processor.py`: pairs with an empty URL or no timestamps are skipped;
a failed video download skips all cuts of that pair only. -/
def pairsLoopA (env : ℕ → Bool) (rowN : ℕ) : List Pair → ℕ → ℕ → List PairRunA × ℕ
  | [], _, a => ([], a)
  | p :: rest, c, a =>
    if p.1.isEmpty || p.2.isEmpty then pairsLoopA env rowN rest c a
    else
      let vidOk := env a
      if vidOk then
        let r := cutLoop env rowN p.2 c (a + 1)
        let r2 := pairsLoopA env rowN rest r.2.1 r.2.2
        (⟨p.1, p.2, true, r.1⟩ :: r2.1, r2.2)
      else
        let r2 := pairsLoopA env rowN rest c (a + 1)
        (⟨p.1, p.2, false, []⟩ :: r2.1, r2.2)

/-- The row loop of `process_clips` in `clip_processor.py`: rows keep their
0-based CSV index (blank rows consume an index and are skipped). -/
def rowsLoopA (env : ℕ → Bool) : List Row → ℕ → ℕ → List RowRunA
  | [], _, _ => []
  | pairs :: rest, rowN, a =>
    if pairs.isEmpty then rowsLoopA env rest (rowN + 1) a
    else
      let r := pairsLoopA env rowN pairs 1 a
      ⟨rowN, r.1⟩ :: rowsLoopA env rest (rowN + 1) r.2

/-- `process_clips` from `clip_processor.py` on a parsed table. -/
def process_clips_dl (env : ℕ → Bool) (rows : List Row) : List RowRunA :=
  rowsLoopA env rows 0 0

/-- An event of the GUI runner: a sampled stop check or a download attempt. -/
inductive GEvent where
  | chk (idx : ℕ) (val : Bool)
  | dl (a : Attempt)
deriving DecidableEq

/-- The `for ts in timestamps` loop of `process_clips` in `gui.py`: the stop
event is checked before every download; names are
`f"{row}.{urlIndex}.{clip_count}"`; the Boolean result records whether the
run was cancelled. -/
def guiTsLoop (stop env : ℕ → Bool) (rowN uIdx : ℕ) (url : String) :
    List ℚ → ℕ → ℕ → ℕ → List GEvent × Bool × ℕ × ℕ × ℕ
  | [], c, k, a => ([], false, c, k, a)
  | ts :: rest, c, k, a =>
    if stop k then ([GEvent.chk k true], true, c, k + 1, a)
    else
      let ok := env a
      let ev : Attempt := ⟨rowN, uIdx, c, url, ts,
        natStr rowN ++ "." ++ natStr uIdx ++ "." ++ natStr c, ok⟩
      let c2 := if ok then c + 1 else c
      let r := guiTsLoop stop env rowN uIdx url rest c2 (k + 1) (a + 1)
      (GEvent.chk k false :: GEvent.dl ev :: r.1, r.2)

/-- The URL loop of `process_clips` in `gui.py`: `urlIndex` is bumped per
URL and `clip_count` is reset to 1 after each URL's timestamps. -/
def guiPairsLoop (stop env : ℕ → Bool) (rowN : ℕ) :
    List Pair → ℕ → ℕ → ℕ → List GEvent × Bool × ℕ × ℕ
  | [], _, k, a => ([], false, k, a)
  | p :: rest, ui, k, a =>
    let r := guiTsLoop stop env rowN (ui + 1) p.1 p.2 1 k a
    if r.2.1 then (r.1, true, r.2.2.2.1, r.2.2.2.2)
    else
      let r2 := guiPairsLoop stop env rowN rest (ui + 1) r.2.2.2.1 r.2.2.2.2
      (r.1 ++ r2.1, r2.2)

/-- The row loop of `process_clips` in `gui.py`: the stop event is checked at
the start of every row. -/
def guiRowsLoop (stop env : ℕ → Bool) : List Row → ℕ → ℕ → ℕ → List GEvent × Bool
  | [], _, _, _ => ([], false)
  | pairs :: rest, rowN, k, a =>
    if stop k then ([GEvent.chk k true], true)
    else
      let r := guiPairsLoop stop env rowN pairs 0 (k + 1) a
      if r.2.1 then (GEvent.chk k false :: r.1, true)
      else
        let r2 := guiRowsLoop stop env rest (rowN + 1) r.2.2.1 r.2.2.2
        (GEvent.chk k false :: (r.1 ++ r2.1), r2.2)

/-- `process_clips` from `gui.py` on a parsed table: empty rows filtered out,
survivors renumbered 1.. . -/
def process_clips_gui (stop env : ℕ → Bool) (rows : List Row) : List GEvent × Bool :=
  guiRowsLoop stop env (rows.filter (fun r => !r.isEmpty)) 1 0 0

/-- The output names of the download attempts in a GUI trace, in order. -/
def dlNames (t : List GEvent) : List String :=
  t.filterMap (fun e => match e with
    | GEvent.dl a => some a.name
    | _ => none)

/-- The (url, timestamp) arguments of the download attempts in a GUI trace,
in order. -/
def guiDlPairs (t : List GEvent) : List (String × ℚ) :=
  t.filterMap (fun e => match e with
    | GEvent.dl a => some (a.url, a.ts)
    | _ => none)

/-- The clip indices of the successful download attempts, in order. -/
def okIdx (l : List Attempt) : List ℕ :=
  (l.filter (fun x => x.ok)).map (fun x => x.clipIdx)

/-- The clip indices of the successful cut attempts, in order. -/
def okCutIdx (l : List CutAttempt) : List ℕ :=
  (l.filter (fun x => x.ok)).map (fun x => x.clipIdx)

/-- The clip indices of the successful downloads in a GUI trace, in order. -/
def guiOkIdx (t : List GEvent) : List ℕ :=
  t.filterMap (fun e => match e with
    | GEvent.dl a => if a.ok then some a.clipIdx else none
    | _ => none)

/-- Does a GUI trace avoid starting with a download?  Every trace the runner
produces opens with a stop check (or is empty). -/
def noDlHead : List GEvent → Bool
  | GEvent.dl _ :: _ => false
  | _ => true

/-- Is a GUI trace an uncancelled check sequence: every stop check negative
and every download immediately preceded by a stop check?  These are the
traces of the loops when the run is not cancelled. -/
def chkSeq : List GEvent → Bool
  | [] => true
  | GEvent.chk _ false :: GEvent.dl _ :: rest => chkSeq rest
  | GEvent.chk _ false :: rest => chkSeq rest
  | _ => false

/-- Well-formedness of a GUI trace: every download is immediately preceded by
a negative stop check, and a positive stop check is the final event — once
the stop signal is observed, no further download is started. -/
def wfTrace : List GEvent → Bool
  | [] => true
  | [GEvent.chk _ _] => true
  | GEvent.chk _ true :: _ :: _ => false
  | GEvent.chk _ false :: GEvent.dl _ :: rest => wfTrace rest
  | GEvent.chk _ false :: rest => wfTrace rest
  | GEvent.dl _ :: _ => false

/-- The number of stop checks in a GUI trace. -/
def chkCount (t : List GEvent) : ℕ :=
  (t.filter (fun e => match e with | GEvent.chk _ _ => true | _ => false)).length

/-- The number of downloads started in a GUI trace. -/
def dlCount (t : List GEvent) : ℕ :=
  (t.filter (fun e => match e with | GEvent.dl _ => true | _ => false)).length

/-! ### Clip success checks (`cut_clip` / `download_clip`)

What the external extractor did is abstracted into an outcome record; the
functions below reproduce the success checks the scripts run on it. -/

/-- Observable outcome of one external extraction/download process. -/
structure ExtractOutcome where
  timedOut : Bool
  exitCode : ℕ
  outCreated : Bool
  outSize : ℕ
deriving DecidableEq

/-- Does `cut_clip` from `clip_processor.py` declare the clip successful
(return without raising)?  It fails on timeout, on a non-zero exit, and when
the output file is missing or empty. -/
def cut_clip_ok (o : ExtractOutcome) : Bool :=
  if o.timedOut then false
  else if o.exitCode ≠ 0 then false
  else if o.outCreated ∧ o.outSize > 0 then true
  else false

/-- Is the extractor's output file still on disk after `cut_clip` returns or
raises?  `cut_clip` never removes it, so it remains iff it was created. -/
def cut_clip_fileRemains (o : ExtractOutcome) : Bool := o.outCreated

/-- Does `download_clip` from `online_clip_processor.py` declare the clip
successful?  Only `returncode != 0` is checked; the output file is never
inspected. -/
def download_clip_online_ok (o : ExtractOutcome) : Bool := o.exitCode = 0

/-! ### Lemmas about `splitChar` and `pyStrip` -/

theorem splitChar_ne_nil (sep : Char) (l : List Char) : splitChar sep l ≠ [] := by
  cases l with
  | nil => simp [splitChar]
  | cons c cs =>
    simp only [splitChar]
    cases h : splitChar sep cs with
    | nil => simp
    | cons h t =>
      by_cases hc : c = sep <;> simp [hc]

theorem splitChar_of_not_mem {sep : Char} {l : List Char} (h : sep ∉ l) :
    splitChar sep l = [l] := by
  induction l with
  | nil => rfl
  | cons c cs ih =>
    have hc : c ≠ sep := fun hh => h (hh ▸ List.mem_cons_self c cs)
    have hcs : sep ∉ cs := fun hh => h (List.mem_cons_of_mem c hh)
    simp only [splitChar, ih hcs]
    simp [fun hh => hc hh]

theorem splitChar_append_sep {sep : Char} {a : List Char} (b : List Char)
    (h : sep ∉ a) : splitChar sep (a ++ sep :: b) = a :: splitChar sep b := by
  induction a with
  | nil =>
    simp only [List.nil_append, splitChar]
    cases hb : splitChar sep b with
    | nil => exact absurd hb (splitChar_ne_nil sep b)
    | cons x t => simp
  | cons c cs ih =>
    have hc : c ≠ sep := fun hh => h (hh ▸ List.mem_cons_self c cs)
    have hcs : sep ∉ cs := fun hh => h (List.mem_cons_of_mem c hh)
    have hstep : splitChar sep (c :: (cs ++ sep :: b)) =
        match splitChar sep (cs ++ sep :: b) with
        | [] => [[]]
        | h :: t => if c = sep then [] :: h :: t else (c :: h) :: t := rfl
    rw [List.cons_append, hstep, ih hcs]
    simp [hc]

theorem splitChar_two_of_single_sep {sep : Char} {a b : List Char}
    (ha : sep ∉ a) (hb : sep ∉ b) :
    splitChar sep (a ++ sep :: b) = [a, b] := by
  rw [splitChar_append_sep b ha, splitChar_of_not_mem hb]

theorem flatten_splitChar (sep : Char) (l : List Char) :
    (splitChar sep l).flatten = l.filter (fun c => !(c == sep)) := by
  induction l with
  | nil => rfl
  | cons c cs ih =>
    have hstep : splitChar sep (c :: cs) =
        match splitChar sep cs with
        | [] => [[]]
        | h :: t => if c = sep then [] :: h :: t else (c :: h) :: t := rfl
    rw [hstep]
    cases hsp : splitChar sep cs with
    | nil => exact absurd hsp (splitChar_ne_nil sep cs)
    | cons h t =>
      rw [hsp] at ih
      rw [List.flatten_cons] at ih
      by_cases hc : c = sep
      · subst hc
        simp [List.filter_cons, ih]
      · simp [hc, List.filter_cons, ih]

theorem mem_of_mem_splitChar {sep : Char} {l p : List Char}
    (hp : p ∈ splitChar sep l) {c : Char} (hc : c ∈ p) : c ∈ l := by
  have hj : c ∈ (splitChar sep l).flatten := List.mem_flatten.mpr ⟨p, hp, hc⟩
  rw [flatten_splitChar] at hj
  exact List.mem_of_mem_filter hj

theorem mem_of_mem_pyStrip {l : List Char} {c : Char} (h : c ∈ pyStrip l) : c ∈ l := by
  unfold pyStrip at h
  rw [List.mem_reverse] at h
  have h2 : c ∈ (l.dropWhile isPySpace).reverse :=
    (List.dropWhile_sublist _).subset h
  rw [List.mem_reverse] at h2
  exact (List.dropWhile_sublist _).subset h2

/-! ### Sign lemmas for `pyInt`, `pyFloat` and `convert_timestamp` -/

theorem map_ofNat_nonneg {x : Option ℕ} {z : ℤ}
    (hz : x.map Int.ofNat = some z) : 0 ≤ z := by
  cases x with
  | none => simp at hz
  | some n =>
    simp only [Option.map_some', Option.some.injEq] at hz
    rw [← hz]
    exact Int.ofNat_nonneg n

theorem pyInt_nonneg {l : List Char} (h : '-' ∉ l) {z : ℤ}
    (hz : pyInt l = some z) : 0 ≤ z := by
  unfold pyInt at hz
  split at hz
  · exact absurd hz (by simp)
  · next c rest hs =>
    have hm : c ≠ '-' := by
      intro hc
      apply h
      apply mem_of_mem_pyStrip (l := l)
      rw [hs, hc]
      exact List.mem_cons_self _ _
    split at hz
    · exact map_ofNat_nonneg hz
    · exact map_ofNat_nonneg hz

theorem pyRatVal_false_nonneg (n k : ℕ) (e : ℤ) : 0 ≤ pyRatVal false n k e := by
  unfold pyRatVal
  split
  · exact Rat.mkRat_nonneg (Int.natCast_nonneg _) _
  · exact Rat.mkRat_nonneg (Int.natCast_nonneg _) _

theorem map_pyRatVal_false_nonneg {x : Option (ℕ × ℕ × ℤ)} {q : ℚ}
    (hq : x.map (fun t => pyRatVal false t.1 t.2.1 t.2.2) = some q) : 0 ≤ q := by
  cases x with
  | none => simp at hq
  | some t =>
    simp only [Option.map_some', Option.some.injEq] at hq
    rw [← hq]
    exact pyRatVal_false_nonneg _ _ _

theorem pyFloat_nonneg {l : List Char} (h : '-' ∉ l) {q : ℚ}
    (hq : pyFloat l = some q) : 0 ≤ q := by
  unfold pyFloat at hq
  split at hq
  · exact absurd hq (by simp)
  · next c rest hs =>
    have hm : c ≠ '-' := by
      intro hc
      apply h
      apply mem_of_mem_pyStrip (l := l)
      rw [hs, hc]
      exact List.mem_cons_self _ _
    split at hq
    · exact map_pyRatVal_false_nonneg hq
    · exact map_pyRatVal_false_nonneg hq

theorem convert_timestamp_nonneg {ts : List Char} (h : '-' ∉ ts) {q : ℚ}
    (hq : convert_timestamp ts = some q) : 0 ≤ q := by
  unfold convert_timestamp at hq
  split at hq
  · next a b hsp =>
    have hp1 : '-' ∉ a := fun hc =>
      h (mem_of_mem_splitChar (hsp ▸ List.mem_cons_self a _) hc)
    have hp2 : '-' ∉ b := fun hc =>
      h (mem_of_mem_splitChar
        (hsp ▸ List.mem_cons_of_mem a (List.mem_cons_self b _)) hc)
    split at hq
    · next m s hme hse =>
      simp only [Option.some.injEq] at hq
      rw [← hq]
      have hm := pyInt_nonneg hp1 hme
      have hs := pyInt_nonneg hp2 hse
      have hz : (0 : ℤ) ≤ m * 60 + s := by positivity
      exact_mod_cast hz
    · exact absurd hq (by simp)
  · exact pyFloat_nonneg h hq

theorem convert_timestamp_gui_nonneg {ts : List Char} (h : '-' ∉ ts) {q : ℚ}
    (hq : convert_timestamp_gui ts = some q) : 0 ≤ q := by
  unfold convert_timestamp_gui at hq
  split at hq
  · next a b hsp =>
    have hp1 : '-' ∉ a := fun hc =>
      h (mem_of_mem_splitChar (hsp ▸ List.mem_cons_self a _) hc)
    have hp2 : '-' ∉ b := fun hc =>
      h (mem_of_mem_splitChar
        (hsp ▸ List.mem_cons_of_mem a (List.mem_cons_self b _)) hc)
    split at hq
    · next m s hme hse =>
      simp only [Option.some.injEq] at hq
      rw [← hq]
      have hm := pyInt_nonneg hp1 hme
      have hs := pyInt_nonneg hp2 hse
      have hz : (0 : ℤ) ≤ m * 60 + s := by positivity
      exact_mod_cast hz
    · exact absurd hq (by simp)
  · next a b c hsp =>
    have hp1 : '-' ∉ a := fun hc =>
      h (mem_of_mem_splitChar (hsp ▸ List.mem_cons_self a _) hc)
    have hp2 : '-' ∉ b := fun hc =>
      h (mem_of_mem_splitChar
        (hsp ▸ List.mem_cons_of_mem a (List.mem_cons_self b _)) hc)
    have hp3 : '-' ∉ c := fun hc =>
      h (mem_of_mem_splitChar
        (hsp ▸ List.mem_cons_of_mem a
          (List.mem_cons_of_mem b (List.mem_cons_self c _))) hc)
    split at hq
    · next hh m s hhe hme hse =>
      simp only [Option.some.injEq] at hq
      rw [← hq]
      have hh2 := pyInt_nonneg hp1 hhe
      have hm := pyInt_nonneg hp2 hme
      have hs := pyInt_nonneg hp3 hse
      have hz : (0 : ℤ) ≤ hh * 3600 + m * 60 + s := by positivity
      exact_mod_cast hz
    · exact absurd hq (by simp)
  · exact pyFloat_nonneg h hq

/-! ### Claim C1: the `MM.SS` timestamp notation -/

/-- C1: a timestamp token containing exactly one `'.'` (written `a ++ '.' :: b`
with dot-free `a`, `b`) whose parts parse as integers M and S is converted to
`M*60 + S` seconds (so `"2.57"` gives 177 and `"0.5"` gives 5, not a decimal
fraction), and a token whose dot-split does not have exactly two parts is
parsed as a plain float. -/
theorem convert_timestamp_mmss :
    (∀ a b : List Char, ∀ m s : ℤ, '.' ∉ a → '.' ∉ b →
      pyInt a = some m → pyInt b = some s →
      convert_timestamp (a ++ '.' :: b) = some (((m * 60 + s : ℤ) : ℚ))) ∧
    (∀ ts : List Char, (splitChar '.' ts).length ≠ 2 →
      convert_timestamp ts = pyFloat ts) := by
  constructor
  · intro a b m s ha hb hm hs
    unfold convert_timestamp
    rw [splitChar_two_of_single_sep ha hb]
    show (match pyInt a, pyInt b with
      | some m, some s => some (((m * 60 + s : ℤ) : ℚ))
      | _, _ => none) = some (((m * 60 + s : ℤ) : ℚ))
    rw [hm, hs]
  · intro ts h
    unfold convert_timestamp
    rw [show splitChar '.' ts = splitChar '.' ts from rfl]
    cases hsp : splitChar '.' ts with
    | nil => rfl
    | cons a t =>
      cases t with
      | nil => rfl
      | cons b t2 =>
        cases t2 with
        | nil => rw [hsp] at h; simp at h
        | cons c t3 => rfl

/-- C1 witness: the theorem instantiated at `"2.57"` (= 177 s) and at the
dot-free token `"120"`. -/
theorem convert_timestamp_mmss_witness :
    ('.' ∉ ("2".data)) ∧ ('.' ∉ ("57".data)) ∧
      pyInt ("2".data) = some 2 ∧ pyInt ("57".data) = some 57 ∧
      convert_timestamp ("2".data ++ '.' :: "57".data) = some (((2 * 60 + 57 : ℤ) : ℚ)) ∧
      convert_timestamp ("2.57".data) = some 177 ∧
      convert_timestamp ("0.5".data) = some 5 ∧
      (splitChar '.' ("120".data)).length ≠ 2 ∧
      convert_timestamp ("120".data) = pyFloat ("120".data) :=
  ⟨by decide, by decide, by decide, by decide,
   convert_timestamp_mmss.1 ("2".data) ("57".data) 2 57
     (by decide) (by decide) (by decide) (by decide),
   by decide, by decide, by decide,
   convert_timestamp_mmss.2 ("120".data) (by decide)⟩

/-! ### Claim C6: sign of parsed timestamps -/

/-- C6 counterexample: the timestamp parsers accept tokens with a minus sign
and return negative values, so parsed TimestampSpec values are not always
`≥ 0`: `"-5"` parses to −5 and (in the gui variant) `"-1.30"` to −30. -/
theorem convert_timestamp_negative_cex :
    convert_timestamp ("-5".data) = some (((-5 : ℤ) : ℚ)) ∧
      convert_timestamp_gui ("-1.30".data) = some (((-30 : ℤ) : ℚ)) ∧
      ¬ (0 ≤ (((-5 : ℤ) : ℚ))) ∧ ¬ (0 ≤ (((-30 : ℤ) : ℚ))) := by decide

/-- C6 amended: every TimestampSpec produced by parsing a timestamp token that
contains no minus sign is `≥ 0` (tokens with a `'-'` can parse to negative
values, as the counterexample shows). -/
theorem convert_timestamp_nonneg_amended :
    ∀ ts : List Char, '-' ∉ ts →
      (∀ q : ℚ, convert_timestamp ts = some q → 0 ≤ q) ∧
      (∀ q : ℚ, convert_timestamp_gui ts = some q → 0 ≤ q) :=
  fun _ h => ⟨fun _ hq => convert_timestamp_nonneg h hq,
              fun _ hq => convert_timestamp_gui_nonneg h hq⟩

/-- C6 amended witness: the amended theorem instantiated at `"2.57"`. -/
theorem convert_timestamp_nonneg_amended_witness :
    ('-' ∉ ("2.57".data)) ∧ convert_timestamp ("2.57".data) = some 177 ∧
      0 ≤ (177 : ℚ) :=
  ⟨by decide, by decide,
   (convert_timestamp_nonneg_amended ("2.57".data) (by decide)).1 177 (by decide)⟩

/-! ### Lemmas about `splitFirst` and `unquote` -/

theorem splitFirst_eq_none_iff {sep : Char} {l : List Char} :
    splitFirst sep l = none ↔ sep ∉ l := by
  induction l with
  | nil => simp [splitFirst]
  | cons c cs ih =>
    simp only [splitFirst]
    by_cases hc : c = sep
    · simp [hc]
    · rw [if_neg hc]
      simp only [Option.map_eq_none', ih, List.mem_cons, not_or]
      constructor
      · intro h2
        exact ⟨fun hh => hc hh.symm, h2⟩
      · intro h2
        exact h2.2

theorem splitFirst_append_sep {sep : Char} {a : List Char} (b : List Char)
    (ha : sep ∉ a) : splitFirst sep (a ++ sep :: b) = some (a, b) := by
  induction a with
  | nil => simp [splitFirst]
  | cons c cs ih =>
    have hc : c ≠ sep := fun hh => ha (hh ▸ List.mem_cons_self c cs)
    have hcs : sep ∉ cs := fun hh => ha (List.mem_cons_of_mem c hh)
    have hstep : splitFirst sep ((c :: cs) ++ sep :: b) =
        (splitFirst sep (cs ++ sep :: b)).map (fun p => (c :: p.1, p.2)) := by
      rw [List.cons_append]
      exact if_neg hc
    rw [hstep, ih hcs, Option.map_some']

theorem plusToSpace_of_no_plus {l : List Char} (h : '+' ∉ l) :
    plusToSpace l = l := by
  induction l with
  | nil => rfl
  | cons c cs ih =>
    have hc : c ≠ '+' := fun hh => h (hh ▸ List.mem_cons_self c cs)
    have hcs : '+' ∉ cs := fun hh => h (List.mem_cons_of_mem c hh)
    simp only [plusToSpace] at ih ⊢
    simp [hc, ih hcs]

theorem pctTokens_of_no_pct {l : List Char} (h : '%' ∉ l) :
    pctTokens l = l.map Sum.inr := by
  unfold pctTokens
  rw [splitChar_of_not_mem h]
  simp [unquoteBits]

theorem detok_map_inr (l : List Char) : detok [] (l.map Sum.inr) = l := by
  induction l with
  | nil => rfl
  | cons c cs ih =>
    simp only [List.map_cons, detok, List.reverse_nil, utf8Decode, List.nil_append, ih]

theorem pyUnquote_of_no_pct {l : List Char} (h : '%' ∉ l) : pyUnquote l = l := by
  unfold pyUnquote
  rw [pctTokens_of_no_pct h, detok_map_inr]

theorem utf8Decode_ne_nil : ∀ {l : List ℕ}, l ≠ [] → utf8Decode l ≠ []
  | [], h => absurd rfl h
  | b :: rest, _ => by
    unfold utf8Decode
    repeat' split
    all_goals simp

theorem detok_ne_nil : ∀ (ts : List (ℕ ⊕ Char)) (acc : List ℕ), acc ≠ [] →
    detok acc ts ≠ [] := by
  intro ts
  induction ts with
  | nil =>
    intro acc hacc
    simp only [detok]
    exact utf8Decode_ne_nil (by simpa using hacc)
  | cons t rest ih =>
    intro acc hacc
    cases t with
    | inl b => exact ih (b :: acc) (by simp)
    | inr c =>
      show utf8Decode acc.reverse ++ c :: detok [] rest ≠ []
      simp

theorem splitChar_length (sep : Char) (l : List Char) :
    (splitChar sep l).length = l.count sep + 1 := by
  induction l with
  | nil => simp [splitChar]
  | cons c cs ih =>
    have hstep : splitChar sep (c :: cs) =
        match splitChar sep cs with
        | [] => [[]]
        | h :: t => if c = sep then [] :: h :: t else (c :: h) :: t := rfl
    rw [hstep]
    cases hsp : splitChar sep cs with
    | nil => exact absurd hsp (splitChar_ne_nil sep cs)
    | cons h t =>
      rw [hsp] at ih
      by_cases hc : c = sep
      · subst hc
        have hred : (match h :: t with
            | [] => ([[]] : List (List Char))
            | h :: t => if c = c then [] :: h :: t else (c :: h) :: t) =
            [] :: h :: t := by simp
        rw [hred]
        simp only [List.length_cons, List.count_cons_self]
        simp only [List.length_cons] at ih
        omega
      · have hred : (match h :: t with
            | [] => ([[]] : List (List Char))
            | h :: t => if c = sep then [] :: h :: t else (c :: h) :: t) =
            (c :: h) :: t := by simp [hc]
        rw [hred]
        simp only [List.length_cons] at ih ⊢
        rw [List.count_cons_of_ne (fun hh => hc hh.symm)]
        omega

theorem eq_nil_of_splitChar_eq {sep : Char} {l : List Char}
    (h : splitChar sep l = [[]]) : l = [] := by
  have hlen := splitChar_length sep l
  rw [h] at hlen
  simp only [List.length_singleton] at hlen
  have hcnt : l.count sep = 0 := by omega
  have hnm : sep ∉ l := by
    intro hm
    have := List.count_pos_iff.mpr hm
    omega
  have := splitChar_of_not_mem hnm
  rw [h] at this
  injection this with h1
  exact h1.symm

theorem unquoteBits_ne_nil (i : List Char) (rest : List (List Char)) :
    unquoteBits (i :: rest) ≠ [] := by
  unfold unquoteBits
  repeat' split
  all_goals simp

theorem pctTokens_ne_nil {l : List Char} (h : l ≠ []) : pctTokens l ≠ [] := by
  unfold pctTokens
  cases hsp : splitChar '%' l with
  | nil => exact absurd hsp (splitChar_ne_nil '%' l)
  | cons first rest =>
    cases first with
    | cons x xs => simp
    | nil =>
      cases rest with
      | nil => exact absurd (eq_nil_of_splitChar_eq hsp) h
      | cons i rest2 =>
        simp only [List.map_nil, List.nil_append]
        exact unquoteBits_ne_nil i rest2

theorem pyUnquote_ne_nil {l : List Char} (h : l ≠ []) : pyUnquote l ≠ [] := by
  unfold pyUnquote
  cases hpt : pctTokens l with
  | nil => exact absurd hpt (pctTokens_ne_nil h)
  | cons t ts =>
    cases t with
    | inl b =>
      simp only [detok]
      exact detok_ne_nil ts [b] (by simp)
    | inr c =>
      show utf8Decode ([] : List ℕ).reverse ++ c :: detok [] ts ≠ []
      simp

theorem parse_qsl_value_ne_nil {qs : List Char} {p : List Char × List Char}
    (hp : p ∈ parse_qsl qs) : p.2 ≠ [] := by
  unfold parse_qsl at hp
  rcases List.mem_filterMap.mp hp with ⟨nv, _, hf⟩
  cases nv with
  | nil => simp at hf
  | cons c cs =>
    split at hf
    · exact absurd hf (by simp)
    · split at hf
      · exact absurd hf (by simp)
      · split at hf
        · exact absurd hf (by simp)
        · next hb =>
          simp only [Option.some.injEq] at hf
          rw [← hf]
          refine pyUnquote_ne_nil ?_
          simpa [plusToSpace] using hb

/-! ### Behaviour of `clean_youtube_url` -/

theorem getV_mem {params : List (List Char × List Char)} {vid : List Char}
    (h : getV params = some vid) : ∃ p ∈ params, p.2 = vid := by
  unfold getV at h
  cases hf : params.find? (fun p => p.1 == ['v']) with
  | none => rw [hf] at h; simp at h
  | some p =>
    rw [hf] at h
    simp only [Option.map_some', Option.some.injEq] at h
    exact ⟨p, List.mem_of_find?_eq_some hf, h⟩

theorem getV_value_ne_nil {qs : List Char} {vid : List Char}
    (h : getV (parse_qsl qs) = some vid) : vid ≠ [] := by
  rcases getV_mem h with ⟨p, hp, hv⟩
  rw [← hv]
  exact parse_qsl_value_ne_nil hp

theorem clean_eq_of_extract_some {u : String} {vid : List Char}
    (h : cleanExtract u = some vid) :
    clean_youtube_url u = ⟨watchHead ++ vid⟩ := by
  unfold cleanExtract at h
  unfold clean_youtube_url
  cases hq : urlsplitQuery u.data with
  | none =>
    rw [hq] at h
    replace h : (none : Option (List Char)) = some vid := h
    exact absurd h (by simp)
  | some q =>
    rw [hq] at h
    replace h : getV (parse_qsl q) = some vid := h
    show (match getV (parse_qsl q) with
      | some vid2 => (⟨watchHead ++ vid2⟩ : String)
      | none => u) = ⟨watchHead ++ vid⟩
    rw [h]

theorem clean_eq_of_extract_none {u : String}
    (h : cleanExtract u = none) : clean_youtube_url u = u := by
  unfold cleanExtract at h
  unfold clean_youtube_url
  cases hq : urlsplitQuery u.data with
  | none => rfl
  | some q =>
    rw [hq] at h
    replace h : getV (parse_qsl q) = none := h
    show (match getV (parse_qsl q) with
      | some vid2 => (⟨watchHead ++ vid2⟩ : String)
      | none => u) = u
    rw [h]

theorem clean_dl_eq (u : String) : clean_youtube_url_dl u = clean_youtube_url u := by
  unfold clean_youtube_url_dl clean_youtube_url
  cases hq : urlsplitQuery u.data with
  | none => rfl
  | some q =>
    show (match getV (parse_qsl q) with
      | some vid => if vid = [] then u else (⟨watchHead ++ vid⟩ : String)
      | none => u) =
      (match getV (parse_qsl q) with
      | some vid => (⟨watchHead ++ vid⟩ : String)
      | none => u)
    cases hg : getV (parse_qsl q) with
    | none => rfl
    | some vid =>
      show (if vid = [] then u else (⟨watchHead ++ vid⟩ : String)) = ⟨watchHead ++ vid⟩
      rw [if_neg (getV_value_ne_nil hg)]

/-! ### Idempotence analysis of `clean_youtube_url` -/

/-- Characters of a `v` value that survive a round trip through
`clean_youtube_url` unchanged: nothing that re-parses as URL or query
structure (`#`, `&`), nothing decoded by `unquote` (`%`, `+`), and nothing
removed by `urlsplit` (tab, CR, LF). -/
def vidSafeChar (c : Char) : Bool :=
  !(c = '#' || c = '&' || c = '%' || c = '+' || c = '\t' || c = '\r' || c = '\n')

/-- Does the `v` value that `clean_youtube_url` would act on (if any) consist
only of round-trip-safe characters? -/
def extractSafe (u : String) : Bool :=
  match cleanExtract u with
  | none => true
  | some vid => vid.all vidSafeChar

theorem vidSafe_spec {c : Char} (h : vidSafeChar c = true) :
    c ≠ '#' ∧ c ≠ '&' ∧ c ≠ '%' ∧ c ≠ '+' ∧ c ≠ '\t' ∧ c ≠ '\r' ∧ c ≠ '\n' := by
  simp only [vidSafeChar, Bool.not_eq_eq_eq_not, Bool.not_true, Bool.or_eq_false_iff,
    decide_eq_false_iff_not] at h
  tauto

theorem takeWhile_append_stop {p : Char → Bool} {good : List Char}
    (hg : ∀ c ∈ good, p c = true) {bad : Char} (hb : p bad = false) (rest : List Char) :
    (good ++ bad :: rest).takeWhile p = good := by
  induction good with
  | nil => simp [List.takeWhile_cons, hb]
  | cons c cs ih =>
    have hc := hg c (List.mem_cons_self c cs)
    have ih2 := ih (fun d hd => hg d (List.mem_cons_of_mem c hd))
    simp [List.takeWhile_cons, hc, ih2]

theorem dropWhile_append_stop {p : Char → Bool} {good : List Char}
    (hg : ∀ c ∈ good, p c = true) {bad : Char} (hb : p bad = false) (rest : List Char) :
    (good ++ bad :: rest).dropWhile p = bad :: rest := by
  induction good with
  | nil => simp [List.dropWhile_cons, hb]
  | cons c cs ih =>
    have hc := hg c (List.mem_cons_self c cs)
    have ih2 := ih (fun d hd => hg d (List.mem_cons_of_mem c hd))
    simp [List.dropWhile_cons, hc, ih2]

theorem urlStripped_watch (vid : List Char) (h : ∀ c ∈ vid, vidSafeChar c = true) :
    urlStripped (watchHead ++ vid) = watchHead ++ vid := by
  unfold urlStripped
  have h1 : (watchHead ++ vid).dropWhile c0OrSpace = watchHead ++ vid := by
    rw [show watchHead ++ vid = 'h' :: ("ttps://www.youtube.com/watch?v=".data ++ vid)
      from rfl]
    exact List.dropWhile_cons_of_neg (by decide)
  rw [h1, List.filter_append]
  have h2 : watchHead.filter (fun c => !(isUrlUnsafe c)) = watchHead := by decide
  have h3 : vid.filter (fun c => !(isUrlUnsafe c)) = vid := by
    rw [List.filter_eq_self]
    intro a ha
    rcases vidSafe_spec (h a ha) with ⟨_, _, _, _, h5, h6, h7⟩
    simp [isUrlUnsafe, h5, h6, h7]
  rw [h2, h3]

theorem urlNoScheme_watch (vid : List Char) :
    urlNoScheme (watchHead ++ vid) = "//www.youtube.com/watch?v=".data ++ vid := by
  unfold urlNoScheme
  have hsp : splitFirst ':' (watchHead ++ vid) =
      some ("https".data, "//www.youtube.com/watch?v=".data ++ vid) := by
    rw [show watchHead ++ vid =
      "https".data ++ ':' :: ("//www.youtube.com/watch?v=".data ++ vid) from rfl]
    exact splitFirst_append_sep _ (by decide)
  rw [hsp]
  rfl

theorem urlAfterNetloc_watch (vid : List Char) :
    urlAfterNetloc ("//www.youtube.com/watch?v=".data ++ vid) =
      some ('/' :: ("watch?v=".data ++ vid)) := by
  rw [show "//www.youtube.com/watch?v=".data ++ vid =
    '/' :: '/' :: ("www.youtube.com".data ++ '/' :: ("watch?v=".data ++ vid)) from rfl]
  have ht : ("www.youtube.com".data ++ '/' :: ("watch?v=".data ++ vid)).takeWhile
      (fun c => !(isNetlocDelim c)) = "www.youtube.com".data :=
    takeWhile_append_stop (by decide) (by decide) _
  have hd : ("www.youtube.com".data ++ '/' :: ("watch?v=".data ++ vid)).dropWhile
      (fun c => !(isNetlocDelim c)) = '/' :: ("watch?v=".data ++ vid) :=
    dropWhile_append_stop (by decide) (by decide) _
  show (if ((("www.youtube.com".data ++ '/' :: ("watch?v=".data ++ vid)).takeWhile
        (fun c => !(isNetlocDelim c))).contains '[') !=
      ((("www.youtube.com".data ++ '/' :: ("watch?v=".data ++ vid)).takeWhile
        (fun c => !(isNetlocDelim c))).contains ']') then none
    else some (("www.youtube.com".data ++ '/' :: ("watch?v=".data ++ vid)).dropWhile
      (fun c => !(isNetlocDelim c)))) = some ('/' :: ("watch?v=".data ++ vid))
  rw [ht, hd]
  rfl

theorem urlQuery_watch (vid : List Char) (h : ∀ c ∈ vid, vidSafeChar c = true) :
    urlQuery ('/' :: ("watch?v=".data ++ vid)) = 'v' :: '=' :: vid := by
  have hfrag : splitFirst '#' ('/' :: ("watch?v=".data ++ vid)) = none := by
    rw [splitFirst_eq_none_iff]
    intro hm
    simp only [List.mem_cons, List.mem_append] at hm
    rcases hm with h1 | h2 | h3
    · exact absurd h1 (by decide)
    · exact absurd h2 (by decide)
    · exact (vidSafe_spec (h _ h3)).1 rfl
  have hq : splitFirst '?' ('/' :: ("watch?v=".data ++ vid)) =
      some ("/watch".data, 'v' :: '=' :: vid) := by
    rw [show '/' :: ("watch?v=".data ++ vid) =
      "/watch".data ++ '?' :: ('v' :: '=' :: vid) from rfl]
    exact splitFirst_append_sep _ (by decide)
  unfold urlQuery
  rw [hfrag]
  show (match splitFirst '?' ('/' :: ("watch?v=".data ++ vid)) with
    | some (_, b) => b
    | none => []) = 'v' :: '=' :: vid
  rw [hq]

theorem parse_qsl_v {vid : List Char} (hne : vid ≠ [])
    (h : ∀ c ∈ vid, vidSafeChar c = true) :
    parse_qsl ('v' :: '=' :: vid) = [(['v'], vid)] := by
  have hamp : '&' ∉ 'v' :: '=' :: vid := by
    intro hm
    simp only [List.mem_cons] at hm
    rcases hm with h1 | h2 | h3
    · exact absurd h1 (by decide)
    · exact absurd h2 (by decide)
    · exact (vidSafe_spec (h _ h3)).2.1 rfl
  have hplus : '+' ∉ vid := fun hm => (vidSafe_spec (h _ hm)).2.2.2.1 rfl
  have hpct : '%' ∉ vid := fun hm => (vidSafe_spec (h _ hm)).2.2.1 rfl
  have hsp : splitFirst '=' ('v' :: '=' :: vid) = some (['v'], vid) := by
    rw [show 'v' :: '=' :: vid = ['v'] ++ '=' :: vid from rfl]
    exact splitFirst_append_sep _ (by decide)
  unfold parse_qsl
  rw [splitChar_of_not_mem hamp, List.filterMap_cons]
  have hf : (match 'v' :: '=' :: vid with
      | [] => (none : Option (List Char × List Char))
      | _ =>
        match splitFirst '=' ('v' :: '=' :: vid) with
        | none => none
        | some (n, v) =>
          if v = [] then none
          else some (pyUnquote (plusToSpace n), pyUnquote (plusToSpace v))) =
      some (['v'], vid) := by
    show (match splitFirst '=' ('v' :: '=' :: vid) with
      | none => (none : Option (List Char × List Char))
      | some (n, v) =>
        if v = [] then none
        else some (pyUnquote (plusToSpace n), pyUnquote (plusToSpace v))) =
      some (['v'], vid)
    rw [hsp]
    show (if vid = [] then (none : Option (List Char × List Char))
      else some (pyUnquote (plusToSpace ['v']), pyUnquote (plusToSpace vid))) =
      some (['v'], vid)
    rw [if_neg hne, plusToSpace_of_no_plus hplus, pyUnquote_of_no_pct hpct]
    rfl
  rw [hf]
  rfl

theorem getV_pair (vid : List Char) : getV [(['v'], vid)] = some vid := rfl

theorem clean_watch_fixed {vid : List Char} (h : ∀ c ∈ vid, vidSafeChar c = true) :
    clean_youtube_url ⟨watchHead ++ vid⟩ = ⟨watchHead ++ vid⟩ := by
  by_cases hne : vid = []
  · subst hne
    decide
  · have hq : urlsplitQuery (String.mk (watchHead ++ vid)).data =
        some ('v' :: '=' :: vid) := by
      show urlsplitQuery (watchHead ++ vid) = some ('v' :: '=' :: vid)
      unfold urlsplitQuery
      rw [urlStripped_watch vid h, urlNoScheme_watch vid, urlAfterNetloc_watch vid]
      show some (urlQuery ('/' :: ("watch?v=".data ++ vid))) = some ('v' :: '=' :: vid)
      rw [urlQuery_watch vid h]
    unfold clean_youtube_url
    rw [hq]
    show (match getV (parse_qsl ('v' :: '=' :: vid)) with
      | some vid2 => (⟨watchHead ++ vid2⟩ : String)
      | none => ⟨watchHead ++ vid⟩) = ⟨watchHead ++ vid⟩
    rw [parse_qsl_v hne h, getV_pair]

/-! ### Claim C4: the URL normaliser's input/output contract -/

/-- C4: whenever the query string of the input has a `v` parameter (i.e.
`cleanExtract` yields its decoded first value `vid`), `clean_youtube_url`
returns exactly `https://www.youtube.com/watch?v=` followed by `vid`; on every
other input (including malformed URLs, whose `ValueError` is swallowed) it
returns the input unchanged and never raises; the `clip_processor.py` variant
agrees with the `online_clip_processor.py`/`gui.py` variant on every input;
and the spec's example normalises as stated. -/
theorem clean_youtube_url_spec :
    (∀ (u : String) (vid : List Char), cleanExtract u = some vid →
      clean_youtube_url u = ⟨watchHead ++ vid⟩) ∧
    (∀ u : String, cleanExtract u = none → clean_youtube_url u = u) ∧
    (∀ u : String, clean_youtube_url_dl u = clean_youtube_url u) ∧
    clean_youtube_url ("https://youtube.com/watch?v=ABC&list=XYZ&t=10") =
      "https://www.youtube.com/watch?v=ABC" :=
  ⟨fun _ _ h => clean_eq_of_extract_some h,
   fun _ h => clean_eq_of_extract_none h,
   clean_dl_eq,
   by decide⟩

/-- C4 witness: the contract instantiated on the spec's example URL and on a
URL without a `v` parameter. -/
theorem clean_youtube_url_spec_witness :
    cleanExtract ("https://youtube.com/watch?v=ABC&list=XYZ&t=10") = some ("ABC".data) ∧
      clean_youtube_url ("https://youtube.com/watch?v=ABC&list=XYZ&t=10") =
        ⟨watchHead ++ "ABC".data⟩ ∧
      cleanExtract ("https://example.com/page") = none ∧
      clean_youtube_url ("https://example.com/page") = "https://example.com/page" :=
  ⟨by decide,
   clean_youtube_url_spec.1 ("https://youtube.com/watch?v=ABC&list=XYZ&t=10")
     ("ABC".data) (by decide),
   by decide,
   clean_youtube_url_spec.2.1 ("https://example.com/page") (by decide)⟩

/-! ### Claim C5: idempotence of the URL normaliser -/

/-- C5 counterexample: `clean_youtube_url` is not idempotent.  For
`"https://x/?v=a%26b"` the first pass percent-decodes the `v` value to `a&b`,
and the second pass re-parses the rebuilt query at the decoded `&`, keeping
only `v=a`. -/
theorem clean_youtube_url_not_idempotent :
    clean_youtube_url (clean_youtube_url ("https://x/?v=a%26b")) ≠
        clean_youtube_url ("https://x/?v=a%26b") ∧
      clean_youtube_url ("https://x/?v=a%26b") = "https://www.youtube.com/watch?v=a&b" ∧
      clean_youtube_url ("https://www.youtube.com/watch?v=a&b") =
        "https://www.youtube.com/watch?v=a" := by decide

/-- C5 amended: `clean_youtube_url` is idempotent on every input whose decoded
`v` value (if any) contains none of `#`, `&`, `%`, `+`, tab, CR, LF — in
particular on all real YouTube video ids; inputs whose `v` value decodes to
such characters can change again on a second pass. -/
theorem clean_youtube_url_idem_amended :
    ∀ u : String, extractSafe u = true →
      clean_youtube_url (clean_youtube_url u) = clean_youtube_url u := by
  intro u h
  unfold extractSafe at h
  cases he : cleanExtract u with
  | none => rw [clean_eq_of_extract_none he, clean_eq_of_extract_none he]
  | some vid =>
    rw [he] at h
    rw [clean_eq_of_extract_some he]
    exact clean_watch_fixed (fun c hc => List.all_eq_true.mp h c hc)

/-- C5 amended witness: idempotence at the spec's own example URL. -/
theorem clean_youtube_url_idem_amended_witness :
    extractSafe ("https://youtube.com/watch?v=ABC&list=XYZ&t=10") = true ∧
      clean_youtube_url (clean_youtube_url ("https://youtube.com/watch?v=ABC&list=XYZ&t=10")) =
        clean_youtube_url ("https://youtube.com/watch?v=ABC&list=XYZ&t=10") :=
  ⟨by decide,
   clean_youtube_url_idem_amended ("https://youtube.com/watch?v=ABC&list=XYZ&t=10")
     (by decide)⟩

/-! ### Behaviour of the job-table parsers -/

theorem pyStrip_head_not_space {l : List Char} (h : pyStrip l ≠ []) :
    isPySpace ((pyStrip l).headD ' ') = false := by
  unfold pyStrip at h ⊢
  have hpre : ((l.dropWhile isPySpace).reverse.dropWhile isPySpace).reverse <+:
      l.dropWhile isPySpace := by
    have hsuf : (l.dropWhile isPySpace).reverse.dropWhile isPySpace <:+
        (l.dropWhile isPySpace).reverse := List.dropWhile_suffix _
    have := List.reverse_prefix.mpr hsuf
    simpa using this
  rcases hpre with ⟨tail, htail⟩
  cases hr : ((l.dropWhile isPySpace).reverse.dropWhile isPySpace).reverse with
  | nil => exact absurd hr h
  | cons c t =>
    rw [hr] at htail
    have hA : l.dropWhile isPySpace = c :: (t ++ tail) := by
      rw [← htail]
      simp
    have hhead := List.head?_dropWhile_not isPySpace l
    rw [hA] at hhead
    simp only [List.head?_cons] at hhead
    simpa using hhead

theorem clean_url_not_blank {l : List Char} (h : pyStrip l ≠ []) :
    (clean_youtube_url ⟨pyStrip l⟩).data ≠ [] ∧
      isPySpace ((clean_youtube_url ⟨pyStrip l⟩).data.headD ' ') = false := by
  cases he : cleanExtract ⟨pyStrip l⟩ with
  | none =>
    rw [clean_eq_of_extract_none he]
    exact ⟨h, pyStrip_head_not_space h⟩
  | some vid =>
    rw [clean_eq_of_extract_some he]
    constructor
    · show watchHead ++ vid ≠ []
      simp [watchHead]
    · show isPySpace ((watchHead ++ vid).headD ' ') = false
      rw [show watchHead ++ vid = 'h' :: ("ttps://www.youtube.com/watch?v=".data ++ vid)
        from rfl, List.headD_cons]
      decide

theorem clean_url_dl_not_blank {l : List Char} (h : pyStrip l ≠ []) :
    (clean_youtube_url_dl ⟨pyStrip l⟩).data ≠ [] ∧
      isPySpace ((clean_youtube_url_dl ⟨pyStrip l⟩).data.headD ' ') = false := by
  rw [clean_dl_eq]
  exact clean_url_not_blank h

theorem pairsWalkOnline_no_blank_url : ∀ (row : List String) (pairs : Row),
    pairsWalkOnline row = some pairs →
    ∀ p ∈ pairs, p.1.data ≠ [] ∧ isPySpace (p.1.data.headD ' ') = false
  | [], pairs, h => by
    simp only [pairsWalkOnline, Option.some.injEq] at h
    subst h
    intro p hp
    exact absurd hp (List.not_mem_nil p)
  | [_], pairs, h => by
    simp only [pairsWalkOnline, Option.some.injEq] at h
    subst h
    intro p hp
    exact absurd hp (List.not_mem_nil p)
  | u :: t :: rest, pairs, h => by
    unfold pairsWalkOnline at h
    split at h
    · exact pairsWalkOnline_no_blank_url rest pairs h
    · next hblank =>
      split at h
      · next tss rest2 hconv hrest =>
        simp only [Option.some.injEq] at h
        subst h
        intro p hp
        rcases List.mem_cons.mp hp with rfl | hp2
        · refine clean_url_not_blank ?_
          intro hnil
          rw [hnil] at hblank
          simp at hblank
        · exact pairsWalkOnline_no_blank_url rest rest2 hrest p hp2
      · exact absurd h (by simp)

theorem pairsWalkDl_no_blank_url : ∀ (row : List String) (pairs : Row),
    pairsWalkDl row = some pairs →
    ∀ p ∈ pairs, p.1.data ≠ [] ∧ isPySpace (p.1.data.headD ' ') = false
  | [], pairs, h => by
    simp only [pairsWalkDl, Option.some.injEq] at h
    subst h
    intro p hp
    exact absurd hp (List.not_mem_nil p)
  | [_], pairs, h => by
    simp only [pairsWalkDl, Option.some.injEq] at h
    subst h
    intro p hp
    exact absurd hp (List.not_mem_nil p)
  | u :: t :: rest, pairs, h => by
    unfold pairsWalkDl at h
    split at h
    · exact pairsWalkDl_no_blank_url rest pairs h
    · next hblank =>
      split at h
      · next tss rest2 hconv hrest =>
        simp only [Option.some.injEq] at h
        subst h
        intro p hp
        rcases List.mem_cons.mp hp with rfl | hp2
        · refine clean_url_dl_not_blank ?_
          intro hnil
          rw [hnil] at hblank
          simp at hblank
        · exact pairsWalkDl_no_blank_url rest rest2 hrest p hp2
      · exact absurd h (by simp)

theorem pairsWalkOnline_odd : ∀ (cells : List String), cells.length % 2 = 0 →
    ∀ x : String, pairsWalkOnline (cells ++ [x]) = pairsWalkOnline cells
  | [], _, x => rfl
  | [_], h, _ => by simp at h
  | u :: t :: rest, h, x => by
    have ih := pairsWalkOnline_odd rest
      (by simp only [List.length_cons] at h; omega) x
    show pairsWalkOnline (u :: t :: (rest ++ [x])) = pairsWalkOnline (u :: t :: rest)
    simp only [pairsWalkOnline]
    rw [ih]

theorem pairsWalkDl_odd : ∀ (cells : List String), cells.length % 2 = 0 →
    ∀ x : String, pairsWalkDl (cells ++ [x]) = pairsWalkDl cells
  | [], _, x => rfl
  | [_], h, _ => by simp at h
  | u :: t :: rest, h, x => by
    have ih := pairsWalkDl_odd rest
      (by simp only [List.length_cons] at h; omega) x
    show pairsWalkDl (u :: t :: (rest ++ [x])) = pairsWalkDl (u :: t :: rest)
    simp only [pairsWalkDl]
    rw [ih]

theorem pairsWalkOnline_blank (u t : String) (rest : List String)
    (h : pyStrip u.data = [] ∨ pyStrip t.data = []) :
    pairsWalkOnline (u :: t :: rest) = pairsWalkOnline rest := by
  have hc : ((pyStrip u.data).isEmpty || (pyStrip t.data).isEmpty) = true := by
    rcases h with h | h <;> simp [h]
  simp only [pairsWalkOnline]
  rw [if_pos hc]

theorem pairsWalkDl_blank_url (u t : String) (rest : List String)
    (h : pyStrip u.data = []) :
    pairsWalkDl (u :: t :: rest) = pairsWalkDl rest := by
  have hc : (pyStrip u.data).isEmpty = true := by simp [h]
  simp only [pairsWalkDl]
  rw [if_pos hc]

theorem pairsWalkDl_blank_ts (u t : String) (rest : List String)
    (hu : pyStrip u.data ≠ []) (ht : pyStrip t.data = []) :
    pairsWalkDl (u :: t :: rest) =
      (pairsWalkDl rest).map
        (fun r => (clean_youtube_url_dl ⟨pyStrip u.data⟩, ([] : List ℚ)) :: r) := by
  have hc : ¬ ((pyStrip u.data).isEmpty = true) := by simpa using hu
  have htok : (if (pyStrip t.data).isEmpty then ([] : List (List Char))
      else tsTokens (pyStrip t.data)) = [] := by
    rw [if_pos (by simp [ht])]
  simp only [pairsWalkDl]
  rw [if_neg hc, htok]
  show (match convList [], pairsWalkDl rest with
    | some tss, some rest2 =>
      some ((clean_youtube_url_dl ⟨pyStrip u.data⟩, tss) :: rest2)
    | _, _ => none) = _
  cases hr : pairsWalkDl rest with
  | none => rfl
  | some r => rfl

/-! ### Claim C2: pair walking and discarding in the job-table parsers -/

/-- C2 counterexample: a ClipRequest with an empty timestamp list can survive
parsing.  In the online parser the timestamp cell `";"` is not blank, so the
pair is kept although every timestamp token is blank; and the clip_processor
parser keeps a pair whose timestamp cell is entirely blank. -/
theorem parse_input_csv_empty_ts_cex :
    parse_input_csv_online [["u", ";"]] = some [[("u", [])]] ∧
      parse_input_csv_dl [["u", ""]] = some [[("u", [])]] := by decide

/-- C2 amended: both parsers walk the cells two at a time and ignore an odd
trailing cell; the online/gui parser discards a pair when either trimmed cell
is blank, while the clip_processor parser discards only on a blank URL cell
and keeps a blank-timestamp pair with an empty timestamp list; no ClipRequest
with a blank URL survives either parser (every surviving URL is non-empty and
starts with a non-whitespace character), but ClipRequests with an empty
timestamp list can survive, as the counterexample shows. -/
theorem parse_input_csv_pairs_amended :
    (∀ cells : List String, cells.length % 2 = 0 → ∀ x : String,
      pairsWalkOnline (cells ++ [x]) = pairsWalkOnline cells ∧
      pairsWalkDl (cells ++ [x]) = pairsWalkDl cells) ∧
    (∀ (u t : String) (rest : List String),
      pyStrip u.data = [] ∨ pyStrip t.data = [] →
      pairsWalkOnline (u :: t :: rest) = pairsWalkOnline rest) ∧
    (∀ (u t : String) (rest : List String), pyStrip u.data = [] →
      pairsWalkDl (u :: t :: rest) = pairsWalkDl rest) ∧
    (∀ (u t : String) (rest : List String),
      pyStrip u.data ≠ [] → pyStrip t.data = [] →
      pairsWalkDl (u :: t :: rest) =
        (pairsWalkDl rest).map
          (fun r => (clean_youtube_url_dl ⟨pyStrip u.data⟩, ([] : List ℚ)) :: r)) ∧
    (∀ (row : List String) (pairs : Row), pairsWalkOnline row = some pairs →
      ∀ p ∈ pairs, p.1.data ≠ [] ∧ isPySpace (p.1.data.headD ' ') = false) ∧
    (∀ (row : List String) (pairs : Row), pairsWalkDl row = some pairs →
      ∀ p ∈ pairs, p.1.data ≠ [] ∧ isPySpace (p.1.data.headD ' ') = false) :=
  ⟨fun cells h x => ⟨pairsWalkOnline_odd cells h x, pairsWalkDl_odd cells h x⟩,
   pairsWalkOnline_blank,
   pairsWalkDl_blank_url,
   pairsWalkDl_blank_ts,
   pairsWalkOnline_no_blank_url,
   pairsWalkDl_no_blank_url⟩

/-- C2 amended witness: the amended clauses instantiated on concrete rows. -/
theorem parse_input_csv_pairs_amended_witness :
    pairsWalkOnline (["a", "1.05"] ++ ["odd"]) = pairsWalkOnline ["a", "1.05"] ∧
      pairsWalkOnline [" ", "x", "b", "2.10"] = pairsWalkOnline ["b", "2.10"] ∧
      pairsWalkOnline ["u", "2.57"] = some [("u", [177])] ∧
      (∀ p ∈ [(("u" : String), ([177] : List ℚ))],
        p.1.data ≠ [] ∧ isPySpace (p.1.data.headD ' ') = false) :=
  ⟨(parse_input_csv_pairs_amended.1 (["a", "1.05"]) (by decide) ("odd")).1,
   parse_input_csv_pairs_amended.2.1 (" ") ("x") (["b", "2.10"]) (Or.inl (by decide)),
   by decide,
   parse_input_csv_pairs_amended.2.2.2.2.1 (["u", "2.57"]) _ (by decide)⟩

/-! ### Claim C3: output naming -/

/-- C3 counterexample: in the range-download runner of
`online_clip_processor.py` (naming scheme `{row}.{clip}`), the clip counter
does not reset per URL: with two URLs of one timestamp each, all succeeding,
the first clip of the second URL is numbered 2 (name `1.2`), not 1. -/
theorem online_clip_index_no_reset_cex :
    (process_clips_online (fun _ => true) [[("a", [10]), ("b", [20])]]).map
        (fun rr => rr.attempts.map (fun x => (x.urlIdx, x.clipIdx, x.name)))
      = [[(1, 1, "1.1"), (2, 2, "1.2")]] ∧ (2 : ℕ) ≠ 1 := by decide

/-- C3 amended: under naming scheme B (gui runner) a row with two URLs of two
timestamps each, all succeeding, produces exactly the names `1.1.1`, `1.1.2`,
`1.2.1`, `1.2.2` in that order, with the clip index resetting to 1 for each
new URL; under scheme A (online runner) the clip counter runs through the
whole row without a per-URL reset, so the very same row produces `1.1`, `1.2`
for the first URL's clips and `1.3`, `1.4` for the second URL's clips — the
second URL's first clip is numbered 3, not 1. -/
theorem gui_naming_scheme_b :
    (∀ (u1 u2 : String) (t1 t2 t3 t4 : ℚ),
      dlNames (process_clips_gui (fun _ => false) (fun _ => true)
        [[(u1, [t1, t2]), (u2, [t3, t4])]]).1 = ["1.1.1", "1.1.2", "1.2.1", "1.2.2"]) ∧
    (∀ (u1 u2 : String) (t1 t2 t3 t4 : ℚ),
      (process_clips_online (fun _ => true) [[(u1, [t1, t2]), (u2, [t3, t4])]]).map
        (fun rr => rr.attempts.map (fun x => (x.urlIdx, x.clipIdx, x.name)))
        = [[(1, 1, "1.1"), (1, 2, "1.2"), (2, 3, "1.3"), (2, 4, "1.4")]]) := by
  constructor
  · intro u1 u2 t1 t2 t3 t4
    with_unfolding_all rfl
  · intro u1 u2 t1 t2 t3 t4
    with_unfolding_all rfl

/-! ### Claim C9: clip success checks and partial files -/

/-- C9 counterexample: `download_clip` in `online_clip_processor.py` declares
success on exit status alone — here with no output file at all — and
`cut_clip` in `clip_processor.py` removes nothing on failure, so a partial
file written by ffmpeg before a non-zero exit stays in place. -/
theorem clip_success_check_cex :
    download_clip_online_ok ⟨false, 0, false, 0⟩ = true ∧
      cut_clip_ok ⟨false, 1, true, 7⟩ = false ∧
      cut_clip_fileRemains ⟨false, 1, true, 7⟩ = true := by decide

/-- C9 amended: only the download-then-cut variant verifies the output —
`cut_clip` succeeds exactly when there is no timeout, the exit status is zero
and the output file exists with non-zero size; the range-download variant's
`download_clip` succeeds exactly when the exit status is zero, without
inspecting the output; and neither removes the output file on failure, so a
partial file remains in place whenever the extractor created one. -/
theorem clip_success_check_amended :
    (∀ o : ExtractOutcome, cut_clip_ok o = true ↔
      o.timedOut = false ∧ o.exitCode = 0 ∧ o.outCreated = true ∧ 0 < o.outSize) ∧
    (∀ o : ExtractOutcome, download_clip_online_ok o = true ↔ o.exitCode = 0) ∧
    (∀ o : ExtractOutcome, cut_clip_fileRemains o = o.outCreated) := by
  refine ⟨fun o => ?_, fun o => by simp [download_clip_online_ok], fun o => rfl⟩
  rcases o with ⟨tOut, ec, oc, os⟩
  cases tOut <;> cases oc <;> simp [cut_clip_ok]


/-! ### Claims C7, C8, C10: runner behaviour

Helper lemmas characterising the loop traces, followed by the claim
theorems. -/

theorem onlineTsLoop_args (env : ℕ → Bool) (rowN uIdx : ℕ) (url : String)
    (ts : List ℚ) (c a : ℕ) :
    (onlineTsLoop env rowN uIdx url ts c a).1.map (fun x => (x.url, x.ts)) =
      ts.map (fun t => (url, t)) := by
  induction ts generalizing c a with
  | nil => rfl
  | cons t rest ih => simp [onlineTsLoop, ih]

theorem onlinePairsLoop_args (env : ℕ → Bool) (rowN : ℕ) (pairs : List Pair)
    (ui c a : ℕ) :
    (onlinePairsLoop env rowN pairs ui c a).1.map (fun x => (x.url, x.ts)) =
      (pairs.map (fun p => p.2.map (fun t => (p.1, t)))).flatten := by
  induction pairs generalizing ui c a with
  | nil => rfl
  | cons p rest ih => simp [onlinePairsLoop, onlineTsLoop_args, ih]

theorem onlineRowsLoop_args (env : ℕ → Bool) (rows : List Row) (rowN a : ℕ) :
    (onlineRowsLoop env rows rowN a).map
        (fun rr => rr.attempts.map (fun x => (x.url, x.ts))) =
      rows.map (fun pairs => (pairs.map (fun p => p.2.map (fun t => (p.1, t)))).flatten) := by
  induction rows generalizing rowN a with
  | nil => rfl
  | cons pairs rest ih => simp [onlineRowsLoop, onlinePairsLoop_args, ih]

theorem cutLoop_ts (env : ℕ → Bool) (rowN : ℕ) (ts : List ℚ) (c a : ℕ) :
    (cutLoop env rowN ts c a).1.map (fun x => x.ts) = ts := by
  induction ts generalizing c a with
  | nil => rfl
  | cons t rest ih => simp [cutLoop, ih]

theorem pairsLoopA_args (env : ℕ → Bool) (rowN : ℕ) (pairs : List Pair) (c a : ℕ) :
    (pairsLoopA env rowN pairs c a).1.map (fun pr => (pr.url, pr.tss)) =
      pairs.filter (fun p => !(p.1.isEmpty || p.2.isEmpty)) := by
  induction pairs generalizing c a with
  | nil => rfl
  | cons p rest ih =>
    by_cases h : (p.1.isEmpty || p.2.isEmpty) = true
    · rcases (by simpa using h : p.1.isEmpty = true ∨ p.2.isEmpty = true) with h1 | h2
      · simp [pairsLoopA, h, ih, List.filter_cons, h1]
      · simp [pairsLoopA, h, ih, List.filter_cons, List.isEmpty_iff.mp h2]
    · have h' := eq_false_of_ne_true h
      have hsplit := Bool.or_eq_false_iff.mp h'
      have h2 := List.isEmpty_eq_false.mp hsplit.2
      by_cases hv : env a = true
      · simp [pairsLoopA, h', hv, ih, List.filter_cons, hsplit.1, h2]
      · have hv' := eq_false_of_ne_true hv
        simp [pairsLoopA, h', hv', ih, List.filter_cons, hsplit.1, h2]

theorem pairsLoopA_cuts (env : ℕ → Bool) (rowN : ℕ) (pairs : List Pair) (c a : ℕ) :
    ∀ pr ∈ (pairsLoopA env rowN pairs c a).1,
      pr.cuts.map (fun x => x.ts) = if pr.vidOk then pr.tss else [] := by
  induction pairs generalizing c a with
  | nil => intro pr h; simp [pairsLoopA] at h
  | cons p rest ih =>
    intro pr hpr
    by_cases h : (p.1.isEmpty || p.2.isEmpty) = true
    · exact ih _ _ pr (by simpa [pairsLoopA, h] using hpr)
    · by_cases hv : env a = true
      · simp only [pairsLoopA, h, hv] at hpr
        simp only [if_false, if_true, Bool.false_eq_true, List.mem_cons] at hpr
        rcases hpr with rfl | hpr
        · simp [cutLoop_ts]
        · exact ih _ _ pr hpr
      · simp only [pairsLoopA, h] at hpr
        simp only [hv, if_false, Bool.false_eq_true, List.mem_cons] at hpr
        rcases hpr with rfl | hpr
        · simp
        · exact ih _ _ pr hpr

theorem rowsLoopA_args (env : ℕ → Bool) (rows : List Row) (rowN a : ℕ) :
    (rowsLoopA env rows rowN a).map
        (fun rr => rr.pairRuns.map (fun pr => (pr.url, pr.tss))) =
      (rows.filter (fun r => !r.isEmpty)).map
        (fun pairs => pairs.filter (fun p => !(p.1.isEmpty || p.2.isEmpty))) := by
  induction rows generalizing rowN a with
  | nil => rfl
  | cons pairs rest ih =>
    by_cases h : pairs.isEmpty
    · simp [rowsLoopA, h, ih, List.filter_cons]
    · simp [rowsLoopA, h, ih, List.filter_cons, pairsLoopA_args]

theorem rowsLoopA_cuts (env : ℕ → Bool) (rows : List Row) (rowN a : ℕ) :
    ∀ rr ∈ rowsLoopA env rows rowN a, ∀ pr ∈ rr.pairRuns,
      pr.cuts.map (fun x => x.ts) = if pr.vidOk then pr.tss else [] := by
  induction rows generalizing rowN a with
  | nil => intro rr h; simp [rowsLoopA] at h
  | cons pairs rest ih =>
    intro rr hrr
    by_cases h : pairs.isEmpty = true
    · exact ih _ _ rr (by simpa [rowsLoopA, h] using hrr)
    · simp only [rowsLoopA, h, Bool.false_eq_true, if_false, List.mem_cons] at hrr
      rcases hrr with rfl | hrr
      · intro pr hpr; exact pairsLoopA_cuts env rowN pairs 1 a pr hpr
      · exact ih _ _ rr hrr

theorem guiTsLoop_args (env : ℕ → Bool) (rowN uIdx : ℕ) (url : String)
    (ts : List ℚ) (c k a : ℕ) :
    (guiTsLoop (fun _ => false) env rowN uIdx url ts c k a).2.1 = false ∧
      guiDlPairs (guiTsLoop (fun _ => false) env rowN uIdx url ts c k a).1 =
        ts.map (fun t => (url, t)) := by
  induction ts generalizing c k a with
  | nil => exact ⟨rfl, rfl⟩
  | cons t rest ih =>
    obtain ⟨h1, h2⟩ := ih (if env a then c + 1 else c) (k + 1) (a + 1)
    constructor
    · simpa [guiTsLoop] using h1
    · simpa [guiTsLoop, guiDlPairs] using h2

theorem guiPairsLoop_args (env : ℕ → Bool) (rowN : ℕ) (pairs : List Pair)
    (ui k a : ℕ) :
    (guiPairsLoop (fun _ => false) env rowN pairs ui k a).2.1 = false ∧
      guiDlPairs (guiPairsLoop (fun _ => false) env rowN pairs ui k a).1 =
        (pairs.map (fun p => p.2.map (fun t => (p.1, t)))).flatten := by
  induction pairs generalizing ui k a with
  | nil => exact ⟨rfl, rfl⟩
  | cons p rest ih =>
    obtain ⟨ht1, ht2⟩ := guiTsLoop_args env rowN (ui + 1) p.1 p.2 1 k a
    obtain ⟨hp1, hp2⟩ := ih (ui + 1)
      (guiTsLoop (fun _ => false) env rowN (ui + 1) p.1 p.2 1 k a).2.2.2.1
      (guiTsLoop (fun _ => false) env rowN (ui + 1) p.1 p.2 1 k a).2.2.2.2
    constructor
    · simp [guiPairsLoop, ht1, hp1]
    · simp [guiPairsLoop, guiDlPairs, ht1]
      simp only [guiDlPairs] at ht2 hp2
      simp [ht2, hp2]

theorem guiRowsLoop_args (env : ℕ → Bool) (rows : List Row) (rowN k a : ℕ) :
    (guiRowsLoop (fun _ => false) env rows rowN k a).2 = false ∧
      guiDlPairs (guiRowsLoop (fun _ => false) env rows rowN k a).1 =
        (rows.map
          (fun pairs => (pairs.map (fun p => p.2.map (fun t => (p.1, t)))).flatten)).flatten := by
  induction rows generalizing rowN k a with
  | nil => exact ⟨rfl, rfl⟩
  | cons pairs rest ih =>
    obtain ⟨hp1, hp2⟩ := guiPairsLoop_args env rowN pairs 0 (k + 1) a
    obtain ⟨hr1, hr2⟩ := ih (rowN + 1)
      (guiPairsLoop (fun _ => false) env rowN pairs 0 (k + 1) a).2.2.1
      (guiPairsLoop (fun _ => false) env rowN pairs 0 (k + 1) a).2.2.2
    constructor
    · simp [guiRowsLoop, hp1, hr1]
    · simp [guiRowsLoop, guiDlPairs, hp1]
      simp only [guiDlPairs] at hp2 hr2
      simp [hp2, hr2]

/-- C7: failure isolation.  (1) The range-download runner attempts every
timestamp of every URL of every non-empty row, whatever the download oracle
does: no failure removes later attempts.  (2) The download-then-cut runner
processes every eligible pair (non-blank URL, non-empty timestamp list) of
every non-empty row, whatever the oracle does.  (3) In the download-then-cut
runner a failed video download skips exactly the cuts of that pair (none are
attempted), while a successful one attempts a cut for every timestamp of the
pair, whatever the per-cut outcomes.  (4) The GUI runner (stop signal never
set) attempts every timestamp of every URL of every non-empty row, whatever
the oracle does. -/
theorem clip_failure_isolation (env : ℕ → Bool) (rows : List Row) :
    ((process_clips_online env rows).map
        (fun rr => rr.attempts.map (fun x => (x.url, x.ts))) =
      (rows.filter (fun r => !r.isEmpty)).map
        (fun pairs => (pairs.map (fun p => p.2.map (fun t => (p.1, t)))).flatten)) ∧
    ((process_clips_dl env rows).map
        (fun rr => rr.pairRuns.map (fun pr => (pr.url, pr.tss))) =
      (rows.filter (fun r => !r.isEmpty)).map
        (fun pairs => pairs.filter (fun p => !(p.1.isEmpty || p.2.isEmpty)))) ∧
    (∀ rr ∈ process_clips_dl env rows, ∀ pr ∈ rr.pairRuns,
      pr.cuts.map (fun x => x.ts) = if pr.vidOk then pr.tss else []) ∧
    (guiDlPairs (process_clips_gui (fun _ => false) env rows).1 =
      ((rows.filter (fun r => !r.isEmpty)).map
        (fun pairs => (pairs.map (fun p => p.2.map (fun t => (p.1, t)))).flatten)).flatten) :=
  ⟨onlineRowsLoop_args env (rows.filter (fun r => !r.isEmpty)) 1 0,
   rowsLoopA_args env rows 0 0,
   rowsLoopA_cuts env rows 0 0,
   (guiRowsLoop_args env (rows.filter (fun r => !r.isEmpty)) 1 0 0).2⟩

theorem okIdx_cons (x : Attempt) (l : List Attempt) :
    okIdx (x :: l) = if x.ok then x.clipIdx :: okIdx l else okIdx l := by
  by_cases h : x.ok = true
  · simp [okIdx, h, List.filter_cons]
  · simp [okIdx, eq_false_of_ne_true h, List.filter_cons]

theorem okIdx_append (a b : List Attempt) : okIdx (a ++ b) = okIdx a ++ okIdx b := by
  simp [okIdx, List.filter_append]

theorem okCutIdx_cons (x : CutAttempt) (l : List CutAttempt) :
    okCutIdx (x :: l) = if x.ok then x.clipIdx :: okCutIdx l else okCutIdx l := by
  by_cases h : x.ok = true
  · simp [okCutIdx, h, List.filter_cons]
  · simp [okCutIdx, eq_false_of_ne_true h, List.filter_cons]

theorem okCutIdx_append (a b : List CutAttempt) :
    okCutIdx (a ++ b) = okCutIdx a ++ okCutIdx b := by
  simp [okCutIdx, List.filter_append]


theorem okIdx_cons_ok (x : Attempt) (l : List Attempt) (h : x.ok = true) :
    okIdx (x :: l) = x.clipIdx :: okIdx l := by
  simp [okIdx, List.filter_cons, h]

theorem okIdx_cons_notok (x : Attempt) (l : List Attempt) (h : x.ok = false) :
    okIdx (x :: l) = okIdx l := by
  simp [okIdx, List.filter_cons, h]

theorem onlineTsLoop_okIdx (env : ℕ → Bool) (rowN uIdx : ℕ) (url : String)
    (ts : List ℚ) (c a : ℕ) :
    okIdx (onlineTsLoop env rowN uIdx url ts c a).1 =
        List.range' c (okIdx (onlineTsLoop env rowN uIdx url ts c a).1).length ∧
      (onlineTsLoop env rowN uIdx url ts c a).2.1 =
        c + (okIdx (onlineTsLoop env rowN uIdx url ts c a).1).length := by
  induction ts generalizing c a with
  | nil => exact ⟨rfl, rfl⟩
  | cons t rest ih =>
    have hred1 : (onlineTsLoop env rowN uIdx url (t :: rest) c a).1 =
        (⟨rowN, uIdx, c, url, t, natStr rowN ++ "." ++ natStr c, env a⟩ : Attempt) ::
          (onlineTsLoop env rowN uIdx url rest (if env a then c + 1 else c) (a + 1)).1 := rfl
    have hred2 : (onlineTsLoop env rowN uIdx url (t :: rest) c a).2.1 =
        (onlineTsLoop env rowN uIdx url rest (if env a then c + 1 else c) (a + 1)).2.1 := rfl
    by_cases hv : env a = true
    · obtain ⟨h1, h2⟩ := ih (c + 1) (a + 1)
      rw [hred1, hred2, if_pos hv,
        okIdx_cons_ok (⟨rowN, uIdx, c, url, t, natStr rowN ++ "." ++ natStr c, env a⟩ : Attempt)
          _ hv,
        List.length_cons]
      refine ⟨?_, ?_⟩
      · rw [List.range'_succ]
        exact congrArg (List.cons c) h1
      · rw [h2]
        omega
    · have hv' := eq_false_of_ne_true hv
      obtain ⟨h1, h2⟩ := ih c (a + 1)
      rw [hred1, hred2, if_neg hv,
        okIdx_cons_notok (⟨rowN, uIdx, c, url, t, natStr rowN ++ "." ++ natStr c, env a⟩ : Attempt)
          _ hv']
      exact ⟨h1, h2⟩

theorem onlinePairsLoop_okIdx (env : ℕ → Bool) (rowN : ℕ) (pairs : List Pair)
    (ui c a : ℕ) :
    okIdx (onlinePairsLoop env rowN pairs ui c a).1 =
      List.range' c (okIdx (onlinePairsLoop env rowN pairs ui c a).1).length := by
  induction pairs generalizing ui c a with
  | nil => rfl
  | cons p rest ih =>
    have hred1 : (onlinePairsLoop env rowN (p :: rest) ui c a).1 =
        (onlineTsLoop env rowN (ui + 1) p.1 p.2 c a).1 ++
          (onlinePairsLoop env rowN rest (ui + 1)
            (onlineTsLoop env rowN (ui + 1) p.1 p.2 c a).2.1
            (onlineTsLoop env rowN (ui + 1) p.1 p.2 c a).2.2).1 := rfl
    obtain ⟨h1, h2⟩ := onlineTsLoop_okIdx env rowN (ui + 1) p.1 p.2 c a
    have hr := ih (ui + 1)
      (c + (okIdx (onlineTsLoop env rowN (ui + 1) p.1 p.2 c a).1).length)
      (onlineTsLoop env rowN (ui + 1) p.1 p.2 c a).2.2
    rw [hred1, okIdx_append, List.length_append, h1, h2, hr]
    simp only [List.length_range']
    rw [List.range'_append_1]
    congr 1
    omega

theorem onlineRowsLoop_okIdx (env : ℕ → Bool) (rows : List Row) (rowN a : ℕ) :
    ∀ rr ∈ onlineRowsLoop env rows rowN a,
      okIdx rr.attempts = List.range' 1 (okIdx rr.attempts).length := by
  induction rows generalizing rowN a with
  | nil => intro rr h; simp [onlineRowsLoop] at h
  | cons pairs rest ih =>
    intro rr hrr
    have hred : onlineRowsLoop env (pairs :: rest) rowN a =
        (⟨rowN, (onlinePairsLoop env rowN pairs 0 1 a).1⟩ : RowRun) ::
          onlineRowsLoop env rest (rowN + 1) (onlinePairsLoop env rowN pairs 0 1 a).2 := rfl
    rw [hred, List.mem_cons] at hrr
    rcases hrr with rfl | hrr
    · exact onlinePairsLoop_okIdx env rowN pairs 0 1 a
    · exact ih _ _ rr hrr

theorem okCutIdx_cons_ok (x : CutAttempt) (l : List CutAttempt) (h : x.ok = true) :
    okCutIdx (x :: l) = x.clipIdx :: okCutIdx l := by
  simp [okCutIdx, List.filter_cons, h]

theorem okCutIdx_cons_notok (x : CutAttempt) (l : List CutAttempt) (h : x.ok = false) :
    okCutIdx (x :: l) = okCutIdx l := by
  simp [okCutIdx, List.filter_cons, h]

theorem cutLoop_okIdx (env : ℕ → Bool) (rowN : ℕ) (ts : List ℚ) (c a : ℕ) :
    okCutIdx (cutLoop env rowN ts c a).1 =
        List.range' c (okCutIdx (cutLoop env rowN ts c a).1).length ∧
      (cutLoop env rowN ts c a).2.1 =
        c + (okCutIdx (cutLoop env rowN ts c a).1).length := by
  induction ts generalizing c a with
  | nil => exact ⟨rfl, rfl⟩
  | cons t rest ih =>
    have hred1 : (cutLoop env rowN (t :: rest) c a).1 =
        (⟨rowN, c, t, natStr rowN ++ "." ++ natStr c ++ ".mp4", env a⟩ : CutAttempt) ::
          (cutLoop env rowN rest (if env a then c + 1 else c) (a + 1)).1 := rfl
    have hred2 : (cutLoop env rowN (t :: rest) c a).2.1 =
        (cutLoop env rowN rest (if env a then c + 1 else c) (a + 1)).2.1 := rfl
    by_cases hv : env a = true
    · obtain ⟨h1, h2⟩ := ih (c + 1) (a + 1)
      rw [hred1, hred2, if_pos hv,
        okCutIdx_cons_ok (⟨rowN, c, t, natStr rowN ++ "." ++ natStr c ++ ".mp4", env a⟩ :
          CutAttempt) _ hv,
        List.length_cons]
      refine ⟨?_, ?_⟩
      · rw [List.range'_succ]
        exact congrArg (List.cons c) h1
      · rw [h2]
        omega
    · have hv' := eq_false_of_ne_true hv
      obtain ⟨h1, h2⟩ := ih c (a + 1)
      rw [hred1, hred2, if_neg hv,
        okCutIdx_cons_notok (⟨rowN, c, t, natStr rowN ++ "." ++ natStr c ++ ".mp4", env a⟩ :
          CutAttempt) _ hv']
      exact ⟨h1, h2⟩

theorem pairsLoopA_okIdx (env : ℕ → Bool) (rowN : ℕ) (pairs : List Pair) (c a : ℕ) :
    okCutIdx (((pairsLoopA env rowN pairs c a).1.map (fun pr => pr.cuts)).flatten) =
      List.range' c
        (okCutIdx (((pairsLoopA env rowN pairs c a).1.map (fun pr => pr.cuts)).flatten)).length := by
  induction pairs generalizing c a with
  | nil => rfl
  | cons p rest ih =>
    by_cases h : (p.1.isEmpty || p.2.isEmpty) = true
    · have e : pairsLoopA env rowN (p :: rest) c a = pairsLoopA env rowN rest c a := by
        simp [pairsLoopA, h]
      rw [e]
      exact ih c a
    · have h' := eq_false_of_ne_true h
      by_cases hv : env a = true
      · have e : (((pairsLoopA env rowN (p :: rest) c a).1.map (fun pr => pr.cuts)).flatten) =
            (cutLoop env rowN p.2 c (a + 1)).1 ++
              (((pairsLoopA env rowN rest (cutLoop env rowN p.2 c (a + 1)).2.1
                (cutLoop env rowN p.2 c (a + 1)).2.2).1.map (fun pr => pr.cuts)).flatten) := by
          simp [pairsLoopA, h', hv]
        obtain ⟨h1, h2⟩ := cutLoop_okIdx env rowN p.2 c (a + 1)
        have hr := ih (c + (okCutIdx (cutLoop env rowN p.2 c (a + 1)).1).length)
          (cutLoop env rowN p.2 c (a + 1)).2.2
        rw [e, okCutIdx_append, List.length_append, h1, h2, hr]
        simp only [List.length_range']
        rw [List.range'_append_1]
        congr 1
        omega
      · have hv' := eq_false_of_ne_true hv
        have e : (((pairsLoopA env rowN (p :: rest) c a).1.map (fun pr => pr.cuts)).flatten) =
            (((pairsLoopA env rowN rest c (a + 1)).1.map (fun pr => pr.cuts)).flatten) := by
          simp [pairsLoopA, h', hv']
        rw [e]
        exact ih c (a + 1)

theorem rowsLoopA_okIdx (env : ℕ → Bool) (rows : List Row) (rowN a : ℕ) :
    ∀ rr ∈ rowsLoopA env rows rowN a,
      okCutIdx ((rr.pairRuns.map (fun pr => pr.cuts)).flatten) =
        List.range' 1 (okCutIdx ((rr.pairRuns.map (fun pr => pr.cuts)).flatten)).length := by
  induction rows generalizing rowN a with
  | nil => intro rr h; simp [rowsLoopA] at h
  | cons pairs rest ih =>
    intro rr hrr
    by_cases h : pairs.isEmpty = true
    · exact ih _ _ rr (by simpa [rowsLoopA, h] using hrr)
    · simp only [rowsLoopA, h, Bool.false_eq_true, if_false, List.mem_cons] at hrr
      rcases hrr with rfl | hrr
      · exact pairsLoopA_okIdx env rowN pairs 1 a
      · exact ih _ _ rr hrr

theorem guiOkIdx_chk (i : ℕ) (v : Bool) (l : List GEvent) :
    guiOkIdx (GEvent.chk i v :: l) = guiOkIdx l := rfl

theorem guiOkIdx_dl_ok (x : Attempt) (l : List GEvent) (h : x.ok = true) :
    guiOkIdx (GEvent.dl x :: l) = x.clipIdx :: guiOkIdx l := by
  simp [guiOkIdx, h]

theorem guiOkIdx_dl_notok (x : Attempt) (l : List GEvent) (h : x.ok = false) :
    guiOkIdx (GEvent.dl x :: l) = guiOkIdx l := by
  simp [guiOkIdx, h]

theorem guiTsLoop_okIdx (stop env : ℕ → Bool) (rowN uIdx : ℕ) (url : String)
    (ts : List ℚ) (c k a : ℕ) :
    guiOkIdx (guiTsLoop stop env rowN uIdx url ts c k a).1 =
        List.range' c (guiOkIdx (guiTsLoop stop env rowN uIdx url ts c k a).1).length ∧
      (guiTsLoop stop env rowN uIdx url ts c k a).2.2.1 =
        c + (guiOkIdx (guiTsLoop stop env rowN uIdx url ts c k a).1).length := by
  induction ts generalizing c k a with
  | nil => exact ⟨rfl, rfl⟩
  | cons t rest ih =>
    by_cases hs : stop k = true
    · have e : guiTsLoop stop env rowN uIdx url (t :: rest) c k a =
          ([GEvent.chk k true], true, c, k + 1, a) := by
        simp [guiTsLoop, hs]
      rw [e]
      exact ⟨rfl, rfl⟩
    · have hs' := eq_false_of_ne_true hs
      have e1 : (guiTsLoop stop env rowN uIdx url (t :: rest) c k a).1 =
          GEvent.chk k false :: GEvent.dl (⟨rowN, uIdx, c, url, t,
              natStr rowN ++ "." ++ natStr uIdx ++ "." ++ natStr c, env a⟩ : Attempt) ::
            (guiTsLoop stop env rowN uIdx url rest (if env a then c + 1 else c)
              (k + 1) (a + 1)).1 := by
        simp [guiTsLoop, hs']
      have e2 : (guiTsLoop stop env rowN uIdx url (t :: rest) c k a).2.2.1 =
          (guiTsLoop stop env rowN uIdx url rest (if env a then c + 1 else c)
            (k + 1) (a + 1)).2.2.1 := by
        simp [guiTsLoop, hs']
      rw [e1, e2, guiOkIdx_chk]
      by_cases hv : env a = true
      · obtain ⟨h1, h2⟩ := ih (c + 1) (k + 1) (a + 1)
        rw [if_pos hv,
          guiOkIdx_dl_ok (⟨rowN, uIdx, c, url, t,
            natStr rowN ++ "." ++ natStr uIdx ++ "." ++ natStr c, env a⟩ : Attempt) _ hv,
          List.length_cons]
        refine ⟨?_, ?_⟩
        · rw [List.range'_succ]
          exact congrArg (List.cons c) h1
        · rw [h2]
          omega
      · have hv' := eq_false_of_ne_true hv
        obtain ⟨h1, h2⟩ := ih c (k + 1) (a + 1)
        rw [if_neg hv,
          guiOkIdx_dl_notok (⟨rowN, uIdx, c, url, t,
            natStr rowN ++ "." ++ natStr uIdx ++ "." ++ natStr c, env a⟩ : Attempt) _ hv']
        exact ⟨h1, h2⟩

/-- C10: in every runner variant the clip counter advances only on success,
so the successful clips of a numbering sequence carry exactly the consecutive
indices starting at the sequence origin — no gaps are left for failures.
(1) In the range-download runner the successful attempts of each executed row
are numbered 1, 2, ... consecutively.  (2) In the download-then-cut runner the
successful cuts of each executed row (across all its pairs, in order) are
numbered 1, 2, ... consecutively.  (3) In the GUI runner the successful
downloads of one URL loop starting at counter c are numbered c, c+1, ...
consecutively, whatever the stop signal and the oracle do. -/
theorem clip_counter_success_only (stop env : ℕ → Bool) (rows : List Row) :
    (∀ rr ∈ process_clips_online env rows,
      okIdx rr.attempts = List.range' 1 (okIdx rr.attempts).length) ∧
    (∀ rr ∈ process_clips_dl env rows,
      okCutIdx ((rr.pairRuns.map (fun pr => pr.cuts)).flatten) =
        List.range' 1 (okCutIdx ((rr.pairRuns.map (fun pr => pr.cuts)).flatten)).length) ∧
    (∀ (rowN uIdx c k a : ℕ) (url : String) (ts : List ℚ),
      guiOkIdx (guiTsLoop stop env rowN uIdx url ts c k a).1 =
        List.range' c (guiOkIdx (guiTsLoop stop env rowN uIdx url ts c k a).1).length) :=
  ⟨onlineRowsLoop_okIdx env (rows.filter (fun r => !r.isEmpty)) 1 0,
   rowsLoopA_okIdx env rows 0 0,
   fun rowN uIdx c k a url ts => (guiTsLoop_okIdx stop env rowN uIdx url ts c k a).1⟩

theorem chkSeq_noDlHead (a : List GEvent) (h : chkSeq a = true) : noDlHead a = true := by
  match a, h with
  | [], _ => rfl
  | GEvent.chk i v :: rest, _ => rfl
  | GEvent.dl x :: rest, h => exact (Bool.false_ne_true h).elim

theorem noDlHead_append (a b : List GEvent) (ha : noDlHead a = true)
    (hb : noDlHead b = true) : noDlHead (a ++ b) = true := by
  match a, ha with
  | [], _ => exact hb
  | GEvent.chk i v :: rest, _ => rfl
  | GEvent.dl x :: rest, ha => exact (Bool.false_ne_true ha).elim

theorem chkSeq_append : ∀ (a b : List GEvent), chkSeq a = true → chkSeq b = true →
    chkSeq (a ++ b) = true
  | [], _, _, hb => hb
  | GEvent.chk _ false :: GEvent.dl _ :: rest, b, ha, hb => by
    show chkSeq (rest ++ b) = true
    exact chkSeq_append rest b ha hb
  | [GEvent.chk i false], b, ha, hb => by
    match b, hb with
    | [], _ => exact rfl
    | GEvent.chk j v :: b2, hb => exact hb
    | GEvent.dl x :: b2, hb => exact (Bool.false_ne_true hb).elim
  | GEvent.chk i false :: GEvent.chk j v :: rest, b, ha, hb => by
    show chkSeq ((GEvent.chk j v :: rest) ++ b) = true
    exact chkSeq_append (GEvent.chk j v :: rest) b ha hb
  | GEvent.chk i true :: rest, _, ha, _ => (Bool.false_ne_true ha).elim
  | GEvent.dl x :: rest, _, ha, _ => (Bool.false_ne_true ha).elim

theorem wfTrace_append : ∀ (a b : List GEvent), chkSeq a = true → noDlHead b = true →
    wfTrace (a ++ b) = wfTrace b
  | [], _, _, _ => rfl
  | GEvent.chk _ false :: GEvent.dl _ :: rest, b, ha, hb => by
    show wfTrace (rest ++ b) = wfTrace b
    exact wfTrace_append rest b ha hb
  | [GEvent.chk i false], b, ha, hb => by
    match b, hb with
    | [], _ => exact rfl
    | GEvent.chk j v :: b2, _ => exact rfl
    | GEvent.dl x :: b2, hb => exact (Bool.false_ne_true hb).elim
  | GEvent.chk i false :: GEvent.chk j v :: rest, b, ha, hb => by
    show wfTrace ((GEvent.chk j v :: rest) ++ b) = wfTrace b
    exact wfTrace_append (GEvent.chk j v :: rest) b ha hb
  | GEvent.chk i true :: rest, _, ha, _ => (Bool.false_ne_true ha).elim
  | GEvent.dl x :: rest, _, ha, _ => (Bool.false_ne_true ha).elim

theorem wfTrace_of_chkSeq (a : List GEvent) (h : chkSeq a = true) : wfTrace a = true := by
  have h2 := wfTrace_append a [] h rfl
  rw [List.append_nil] at h2
  exact h2.trans rfl

theorem wfTrace_cons_chk (i : ℕ) (X : List GEvent) (h : noDlHead X = true) :
    wfTrace (GEvent.chk i false :: X) = wfTrace X := by
  match X, h with
  | [], _ => exact rfl
  | GEvent.chk j v :: X2, _ => exact rfl
  | GEvent.dl x :: X2, h => exact (Bool.false_ne_true h).elim

theorem chkSeq_cons_chk (i : ℕ) (X : List GEvent) (h : noDlHead X = true) :
    chkSeq (GEvent.chk i false :: X) = chkSeq X := by
  match X, h with
  | [], _ => exact rfl
  | GEvent.chk j v :: X2, _ => exact rfl
  | GEvent.dl x :: X2, h => exact (Bool.false_ne_true h).elim

theorem guiTsLoop_trace (stop env : ℕ → Bool) (rowN uIdx : ℕ) (url : String)
    (ts : List ℚ) (c k a : ℕ) :
    ((guiTsLoop stop env rowN uIdx url ts c k a).2.1 = false →
      chkSeq (guiTsLoop stop env rowN uIdx url ts c k a).1 = true) ∧
    ((guiTsLoop stop env rowN uIdx url ts c k a).2.1 = true →
      wfTrace (guiTsLoop stop env rowN uIdx url ts c k a).1 = true) ∧
    noDlHead (guiTsLoop stop env rowN uIdx url ts c k a).1 = true := by
  induction ts generalizing c k a with
  | nil => exact ⟨fun _ => rfl, fun h => Bool.noConfusion h, rfl⟩
  | cons t rest ih =>
    by_cases hs : stop k = true
    · have e : guiTsLoop stop env rowN uIdx url (t :: rest) c k a =
          ([GEvent.chk k true], true, c, k + 1, a) := by
        simp [guiTsLoop, hs]
      rw [e]
      exact ⟨fun h => Bool.noConfusion h, fun _ => rfl, rfl⟩
    · have hs' := eq_false_of_ne_true hs
      have e1 : (guiTsLoop stop env rowN uIdx url (t :: rest) c k a).1 =
          GEvent.chk k false :: GEvent.dl (⟨rowN, uIdx, c, url, t,
              natStr rowN ++ "." ++ natStr uIdx ++ "." ++ natStr c, env a⟩ : Attempt) ::
            (guiTsLoop stop env rowN uIdx url rest (if env a then c + 1 else c)
              (k + 1) (a + 1)).1 := by
        simp [guiTsLoop, hs']
      have e2 : (guiTsLoop stop env rowN uIdx url (t :: rest) c k a).2.1 =
          (guiTsLoop stop env rowN uIdx url rest (if env a then c + 1 else c)
            (k + 1) (a + 1)).2.1 := by
        simp [guiTsLoop, hs']
      obtain ⟨ih1, ih2, ih3⟩ := ih (if env a then c + 1 else c) (k + 1) (a + 1)
      rw [e1, e2]
      refine ⟨fun h => ?_, fun h => ?_, rfl⟩
      · show chkSeq (guiTsLoop stop env rowN uIdx url rest (if env a then c + 1 else c)
          (k + 1) (a + 1)).1 = true
        exact ih1 h
      · show wfTrace (guiTsLoop stop env rowN uIdx url rest (if env a then c + 1 else c)
          (k + 1) (a + 1)).1 = true
        exact ih2 h

theorem guiPairsLoop_trace (stop env : ℕ → Bool) (rowN : ℕ) (pairs : List Pair)
    (ui k a : ℕ) :
    ((guiPairsLoop stop env rowN pairs ui k a).2.1 = false →
      chkSeq (guiPairsLoop stop env rowN pairs ui k a).1 = true) ∧
    ((guiPairsLoop stop env rowN pairs ui k a).2.1 = true →
      wfTrace (guiPairsLoop stop env rowN pairs ui k a).1 = true) ∧
    noDlHead (guiPairsLoop stop env rowN pairs ui k a).1 = true := by
  induction pairs generalizing ui k a with
  | nil => exact ⟨fun _ => rfl, fun h => Bool.noConfusion h, rfl⟩
  | cons p rest ih =>
    obtain ⟨t1, t2, t3⟩ := guiTsLoop_trace stop env rowN (ui + 1) p.1 p.2 1 k a
    by_cases hf : (guiTsLoop stop env rowN (ui + 1) p.1 p.2 1 k a).2.1 = true
    · have e : guiPairsLoop stop env rowN (p :: rest) ui k a =
          ((guiTsLoop stop env rowN (ui + 1) p.1 p.2 1 k a).1, true,
            (guiTsLoop stop env rowN (ui + 1) p.1 p.2 1 k a).2.2.2.1,
            (guiTsLoop stop env rowN (ui + 1) p.1 p.2 1 k a).2.2.2.2) := by
        simp [guiPairsLoop, hf]
      rw [e]
      exact ⟨fun h => Bool.noConfusion h, fun _ => t2 hf, t3⟩
    · have hf' := eq_false_of_ne_true hf
      have e1 : (guiPairsLoop stop env rowN (p :: rest) ui k a).1 =
          (guiTsLoop stop env rowN (ui + 1) p.1 p.2 1 k a).1 ++
            (guiPairsLoop stop env rowN rest (ui + 1)
              (guiTsLoop stop env rowN (ui + 1) p.1 p.2 1 k a).2.2.2.1
              (guiTsLoop stop env rowN (ui + 1) p.1 p.2 1 k a).2.2.2.2).1 := by
        simp [guiPairsLoop, hf']
      have e2 : (guiPairsLoop stop env rowN (p :: rest) ui k a).2.1 =
          (guiPairsLoop stop env rowN rest (ui + 1)
            (guiTsLoop stop env rowN (ui + 1) p.1 p.2 1 k a).2.2.2.1
            (guiTsLoop stop env rowN (ui + 1) p.1 p.2 1 k a).2.2.2.2).2.1 := by
        simp [guiPairsLoop, hf']
      obtain ⟨r1, r2, r3⟩ := ih (ui + 1)
        (guiTsLoop stop env rowN (ui + 1) p.1 p.2 1 k a).2.2.2.1
        (guiTsLoop stop env rowN (ui + 1) p.1 p.2 1 k a).2.2.2.2
      have hseq := t1 hf'
      rw [e1, e2]
      refine ⟨fun h => chkSeq_append _ _ hseq (r1 h), fun h => ?_,
        noDlHead_append _ _ t3 r3⟩
      rw [wfTrace_append _ _ hseq r3]
      exact r2 h

theorem guiRowsLoop_trace (stop env : ℕ → Bool) (rows : List Row) (rowN k a : ℕ) :
    wfTrace (guiRowsLoop stop env rows rowN k a).1 = true ∧
      ((guiRowsLoop stop env rows rowN k a).2 = false →
        chkSeq (guiRowsLoop stop env rows rowN k a).1 = true) ∧
      noDlHead (guiRowsLoop stop env rows rowN k a).1 = true := by
  induction rows generalizing rowN k a with
  | nil => exact ⟨rfl, fun _ => rfl, rfl⟩
  | cons pairs rest ih =>
    by_cases hs : stop k = true
    · have e : guiRowsLoop stop env (pairs :: rest) rowN k a =
          ([GEvent.chk k true], true) := by
        simp [guiRowsLoop, hs]
      rw [e]
      exact ⟨rfl, fun h => Bool.noConfusion h, rfl⟩
    · have hs' := eq_false_of_ne_true hs
      obtain ⟨p1, p2, p3⟩ := guiPairsLoop_trace stop env rowN pairs 0 (k + 1) a
      by_cases hf : (guiPairsLoop stop env rowN pairs 0 (k + 1) a).2.1 = true
      · have e : guiRowsLoop stop env (pairs :: rest) rowN k a =
            (GEvent.chk k false :: (guiPairsLoop stop env rowN pairs 0 (k + 1) a).1,
              true) := by
          simp [guiRowsLoop, hs', hf]
        rw [e]
        refine ⟨?_, fun h => Bool.noConfusion h, rfl⟩
        rw [wfTrace_cons_chk _ _ p3]
        exact p2 hf
      · have hf' := eq_false_of_ne_true hf
        have e1 : (guiRowsLoop stop env (pairs :: rest) rowN k a).1 =
            GEvent.chk k false :: ((guiPairsLoop stop env rowN pairs 0 (k + 1) a).1 ++
              (guiRowsLoop stop env rest (rowN + 1)
                (guiPairsLoop stop env rowN pairs 0 (k + 1) a).2.2.1
                (guiPairsLoop stop env rowN pairs 0 (k + 1) a).2.2.2).1) := by
          simp [guiRowsLoop, hs', hf']
        have e2 : (guiRowsLoop stop env (pairs :: rest) rowN k a).2 =
            (guiRowsLoop stop env rest (rowN + 1)
              (guiPairsLoop stop env rowN pairs 0 (k + 1) a).2.2.1
              (guiPairsLoop stop env rowN pairs 0 (k + 1) a).2.2.2).2 := by
          simp [guiRowsLoop, hs', hf']
        obtain ⟨r1, r2, r3⟩ := ih (rowN + 1)
          (guiPairsLoop stop env rowN pairs 0 (k + 1) a).2.2.1
          (guiPairsLoop stop env rowN pairs 0 (k + 1) a).2.2.2
        have hseq := p1 hf'
        have hnd := noDlHead_append _ _ p3 r3
        rw [e1, e2]
        refine ⟨?_, fun h => ?_, rfl⟩
        · rw [wfTrace_cons_chk _ _ hnd, wfTrace_append _ _ hseq r3]
          exact r1
        · rw [chkSeq_cons_chk _ _ hnd]
          exact chkSeq_append _ _ hseq (r2 h)

theorem chkCount_cons_chk (i : ℕ) (v : Bool) (X : List GEvent) :
    chkCount (GEvent.chk i v :: X) = chkCount X + 1 := by
  simp [chkCount]

theorem chkCount_cons_dl (x : Attempt) (X : List GEvent) :
    chkCount (GEvent.dl x :: X) = chkCount X := by
  simp [chkCount]

theorem chkCount_append (A B : List GEvent) :
    chkCount (A ++ B) = chkCount A + chkCount B := by
  simp [chkCount, List.filter_append]

theorem dlCount_cons_chk (i : ℕ) (v : Bool) (X : List GEvent) :
    dlCount (GEvent.chk i v :: X) = dlCount X := by
  simp [dlCount]

theorem dlCount_cons_dl (x : Attempt) (X : List GEvent) :
    dlCount (GEvent.dl x :: X) = dlCount X + 1 := by
  simp [dlCount]

theorem dlCount_append (A B : List GEvent) :
    dlCount (A ++ B) = dlCount A + dlCount B := by
  simp [dlCount, List.filter_append]

theorem guiTsLoop_counts (env : ℕ → Bool) (rowN uIdx : ℕ) (url : String)
    (ts : List ℚ) (c k a : ℕ) :
    chkCount (guiTsLoop (fun _ => false) env rowN uIdx url ts c k a).1 =
      dlCount (guiTsLoop (fun _ => false) env rowN uIdx url ts c k a).1 := by
  induction ts generalizing c k a with
  | nil => rfl
  | cons t rest ih =>
    have e1 : (guiTsLoop (fun _ => false) env rowN uIdx url (t :: rest) c k a).1 =
        GEvent.chk k false :: GEvent.dl (⟨rowN, uIdx, c, url, t,
            natStr rowN ++ "." ++ natStr uIdx ++ "." ++ natStr c, env a⟩ : Attempt) ::
          (guiTsLoop (fun _ => false) env rowN uIdx url rest (if env a then c + 1 else c)
            (k + 1) (a + 1)).1 := by
      simp [guiTsLoop]
    rw [e1, chkCount_cons_chk, chkCount_cons_dl, dlCount_cons_chk, dlCount_cons_dl,
      ih (if env a then c + 1 else c) (k + 1) (a + 1)]

theorem guiPairsLoop_counts (env : ℕ → Bool) (rowN : ℕ) (pairs : List Pair)
    (ui k a : ℕ) :
    chkCount (guiPairsLoop (fun _ => false) env rowN pairs ui k a).1 =
      dlCount (guiPairsLoop (fun _ => false) env rowN pairs ui k a).1 := by
  induction pairs generalizing ui k a with
  | nil => rfl
  | cons p rest ih =>
    have hf' := (guiTsLoop_args env rowN (ui + 1) p.1 p.2 1 k a).1
    have e1 : (guiPairsLoop (fun _ => false) env rowN (p :: rest) ui k a).1 =
        (guiTsLoop (fun _ => false) env rowN (ui + 1) p.1 p.2 1 k a).1 ++
          (guiPairsLoop (fun _ => false) env rowN rest (ui + 1)
            (guiTsLoop (fun _ => false) env rowN (ui + 1) p.1 p.2 1 k a).2.2.2.1
            (guiTsLoop (fun _ => false) env rowN (ui + 1) p.1 p.2 1 k a).2.2.2.2).1 := by
      simp [guiPairsLoop, hf']
    rw [e1, chkCount_append, dlCount_append, guiTsLoop_counts,
      ih (ui + 1)
        (guiTsLoop (fun _ => false) env rowN (ui + 1) p.1 p.2 1 k a).2.2.2.1
        (guiTsLoop (fun _ => false) env rowN (ui + 1) p.1 p.2 1 k a).2.2.2.2]

theorem guiRowsLoop_counts (env : ℕ → Bool) (rows : List Row) (rowN k a : ℕ) :
    chkCount (guiRowsLoop (fun _ => false) env rows rowN k a).1 =
      rows.length + dlCount (guiRowsLoop (fun _ => false) env rows rowN k a).1 := by
  induction rows generalizing rowN k a with
  | nil => rfl
  | cons pairs rest ih =>
    have hf' := (guiPairsLoop_args env rowN pairs 0 (k + 1) a).1
    have e1 : (guiRowsLoop (fun _ => false) env (pairs :: rest) rowN k a).1 =
        GEvent.chk k false ::
          ((guiPairsLoop (fun _ => false) env rowN pairs 0 (k + 1) a).1 ++
            (guiRowsLoop (fun _ => false) env rest (rowN + 1)
              (guiPairsLoop (fun _ => false) env rowN pairs 0 (k + 1) a).2.2.1
              (guiPairsLoop (fun _ => false) env rowN pairs 0 (k + 1) a).2.2.2).1) := by
      simp [guiRowsLoop, hf']
    rw [e1, chkCount_cons_chk, chkCount_append, dlCount_cons_chk, dlCount_append,
      guiPairsLoop_counts,
      ih (rowN + 1)
        (guiPairsLoop (fun _ => false) env rowN pairs 0 (k + 1) a).2.2.1
        (guiPairsLoop (fun _ => false) env rowN pairs 0 (k + 1) a).2.2.2]
    simp [List.length_cons]
    omega

/-- C8: the stop signal is cooperative.  (1) In every GUI trace, a download is
started only immediately after a negative stop check and a positive stop
check is the final event of the run — once the signal is observed no further
download is started, whatever the stop signal and the oracle do.  (2) When the
signal is never set, the number of stop checks equals the number of surviving
rows plus the number of downloads: one check at the start of each row and one
before each clip.  (3) When the signal is never set the run is not reported
cancelled.  (4) Setting the signal after the first clip of a two-clip URL
yields exactly one download (named 1.1.1) and a cancelled run. -/
theorem gui_stop_cooperative (stop env : ℕ → Bool) (rows : List Row) :
    wfTrace (process_clips_gui stop env rows).1 = true ∧
    chkCount (process_clips_gui (fun _ => false) env rows).1 =
      (rows.filter (fun r => !r.isEmpty)).length +
        dlCount (process_clips_gui (fun _ => false) env rows).1 ∧
    (process_clips_gui (fun _ => false) env rows).2 = false ∧
    (∀ (u : String) (t1 t2 : ℚ),
      dlNames (process_clips_gui (fun k => 2 ≤ k) (fun _ => true)
        [[(u, [t1, t2])]]).1 = ["1.1.1"] ∧
      (process_clips_gui (fun k => 2 ≤ k) (fun _ => true) [[(u, [t1, t2])]]).2 = true) := by
  refine ⟨(guiRowsLoop_trace stop env (rows.filter (fun r => !r.isEmpty)) 1 0 0).1,
    guiRowsLoop_counts env (rows.filter (fun r => !r.isEmpty)) 1 0 0,
    (guiRowsLoop_args env (rows.filter (fun r => !r.isEmpty)) 1 0 0).1,
    fun u t1 t2 => ⟨?_, ?_⟩⟩
  · with_unfolding_all rfl
  · with_unfolding_all rfl


end FiveSec
